import Mathlib

/-!
Verification of the mapbox-gl-native resource cache / offline storage spec.

Source-backed components:
* `MbglGl.State`    embeds `mbgl::gl::State` from `src/mbgl/gl/state.hpp`.
* `MbglUtil.GridIndex` embeds `mbgl::GridIndex` from the `grid_index.cpp`
  translation unit appended to `src/mbgl/renderer/circle_bucket.cpp`.

The offline storage engine (ResourceStore, AmbientCache, Downloader,
RegionManager, RequestRouter) is not present in the source tree; only its
Java entry point `OfflineManager.java` is.  Its operations are modelled
from the specification text (each such definition says so in its doc
comment).
-/

namespace MbglGl

/-- Embeds `mbgl::gl::State` from `src/mbgl/gl/state.hpp`: the cached value
of one piece of OpenGL state (`currentValue`) together with the `dirty` flag. -/
structure State (α : Type) where
  currentValue : α
  dirty : Bool
deriving Repr, DecidableEq

/-- The member initializers of `State`: `currentValue = T::Default`,
`dirty = true`. -/
def State.init {α : Type} (default : α) : State α :=
  { currentValue := default, dirty := true }

/-- `State::operator!=`: `dirty || currentValue != value`. -/
def State.neValue {α : Type} [DecidableEq α] (s : State α) (v : α) : Bool :=
  s.dirty || decide (s.currentValue ≠ v)

/-- `State::setCurrentValue`: clears `dirty` and stores the value. -/
def State.setCurrentValue {α : Type} (s : State α) (v : α) : State α :=
  { s with dirty := false, currentValue := v }

/-- `State::setDirty`. -/
def State.setDirty {α : Type} (s : State α) : State α :=
  { s with dirty := true }

/-- `State::getCurrentValue`. -/
def State.getCurrentValue {α : Type} (s : State α) : α :=
  s.currentValue

/-- `State::isDirty`. -/
def State.isDirty {α : Type} (s : State α) : Bool :=
  s.dirty

/-- `State::operator=`: when `*this != value`, store the value via
`setCurrentValue` and perform the underlying `T::Set` call.  The returned
`Bool` records whether `T::Set` was invoked. -/
def State.assign {α : Type} [DecidableEq α] (s : State α) (v : α) : State α × Bool :=
  if s.neValue v then (s.setCurrentValue v, true) else (s, false)

end MbglGl

namespace MbglOffline

/-- Resource kinds, from the spec data model:
`kind (Style | Tile | Sprite | Glyph | SourceMetadata)`. -/
inductive Kind where
  | style
  | tile
  | sprite
  | glyph
  | sourceMetadata
deriving Repr, DecidableEq

/-- Modelled from the spec: a resource key is a "stable composite of kind +
canonical locator"; the locator (URL string or encoded tile coordinate
triple + source id) is modelled as a `Nat`. -/
structure Key where
  kind : Kind
  locator : Nat
deriving Repr, DecidableEq

/-- Modelled from the spec: a stored resource row — opaque byte `payload`,
opaque revalidation metadata (`etag`/`expires`/`modified` folded into one
opaque `meta` value), and the `accessedAt` timestamp used for ambient
eviction ordering.  Its `size` is the payload's byte count. -/
structure Resource where
  payload : List Nat
  meta : Nat
  accessedAt : Nat
deriving Repr, DecidableEq

/-- A resource's `size` attribute (bytes). -/
def Resource.size (r : Resource) : Nat :=
  r.payload.length

/-- Region download states from the spec data model (`Inactive | Active`). -/
inductive RegState where
  | inactive
  | active
deriving Repr, DecidableEq

/-- Modelled from the spec: a region definition
`{boundingBox: (minLat, minLon, maxLat, maxLon), minZoom, maxZoom,
styleLocator, pixelRatio}`.  Latitudes/longitudes are scaled integers. -/
structure RegionDef where
  minLat : Int
  minLon : Int
  maxLat : Int
  maxLon : Int
  minZoom : Nat
  maxZoom : Nat
  styleLocator : Nat
  pixelRatio : Nat
deriving Repr, DecidableEq

/-- Modelled from the spec: an offline region row.  The spec's
`manifestCount` is the length of the enumerated `manifest`;
`completedResourceCount` is derived from the region's links in the store. -/
structure Region where
  definition : RegionDef
  metadata : List Nat
  state : RegState
  manifest : List Key
  createdAt : Nat
deriving Repr, DecidableEq

/-- The spec's `manifestCount` attribute: total required resources. -/
def Region.manifestCount (r : Region) : Nat :=
  r.manifest.length

/-- The error taxonomy surfaced to the application, from the spec. -/
inductive OfflineError where
  | networkError
  | quotaExceededError
  | invalidRegionDefinitionError
  | regionNotFoundError
  | regionStateError
  | storageCorruptionError
deriving Repr, DecidableEq

/-- Association-list lookup: first entry with the given key. -/
def lookupA {κ β : Type} [DecidableEq κ] : List (κ × β) → κ → Option β
  | [], _ => none
  | kv :: rest, k => if kv.1 = k then some kv.2 else lookupA rest k

/-- Association-list upsert: replaces the first entry with the given key,
or appends a new entry at the end (preserving insertion order). -/
def setA {κ β : Type} [DecidableEq κ] : List (κ × β) → κ → β → List (κ × β)
  | [], k, v => [(k, v)]
  | kv :: rest, k, v => if kv.1 = k then (k, v) :: rest else kv :: setA rest k v

/-- Association-list removal of the first entry with the given key. -/
def removeA {κ β : Type} [DecidableEq κ] : List (κ × β) → κ → List (κ × β)
  | [], _ => []
  | kv :: rest, k => if kv.1 = k then rest else kv :: removeA rest k

/-- Modelled from the spec: the persistent store — `resources(key, row)`,
`region_resources(regionId, resourceKey)` links, `regions(id, row)`,
the configured ambient-size bound and global tile-count limit, a logical
clock for `accessedAt`/`createdAt`, and the next fresh region id. -/
structure Store where
  resources : List (Key × Resource)
  links : List (Nat × Key)
  regions : List (Nat × Region)
  maxAmbient : Nat
  tileLimit : Nat
  clock : Nat
  nextRegionId : Nat
deriving Repr, DecidableEq

/-- A freshly opened, empty store with the configured bounds. -/
def initStore (maxAmbient tileLimit : Nat) : Store :=
  { resources := [], links := [], regions := [], maxAmbient := maxAmbient,
    tileLimit := tileLimit, clock := 0, nextRegionId := 0 }

/-- Whether some region links the given key
(what exempts a resource from ambient eviction). -/
def linkedIn (links : List (Nat × Key)) (k : Key) : Bool :=
  links.any (fun l => l.2 = k)

/-- Modelled from the spec: `ResourceStore.put(key, payload, metadata)` —
"upserts, overwrites payload/metadata, resets `accessedAt`". -/
def Store.put (s : Store) (k : Key) (payload : List Nat) (meta : Nat) : Store :=
  { s with
    resources := setA s.resources k { payload := payload, meta := meta, accessedAt := s.clock },
    clock := s.clock + 1 }

/-- Modelled from the spec: `ResourceStore.get(key)` — "returns the resource
if present and touches `accessedAt` only for ambient (unlinked) entries". -/
def Store.get (s : Store) (k : Key) : Option Resource × Store :=
  match lookupA s.resources k with
  | none => (none, s)
  | some r =>
    if linkedIn s.links k then (some r, s)
    else (some r,
      { s with resources := setA s.resources k { r with accessedAt := s.clock },
               clock := s.clock + 1 })

/-- The ambient (unlinked) entries of a resource table, given the link table:
the entries whose key has zero `RegionResourceLink`s. -/
def ambientOf (links : List (Nat × Key)) (resources : List (Key × Resource)) :
    List (Key × Resource) :=
  resources.filter (fun kv => !(linkedIn links kv.1))

/-- Modelled from the spec: `totalAmbientSize()` — total size of resources
with zero region links. -/
def totalAmbientSize (s : Store) : Nat :=
  ((ambientOf s.links s.resources).map (fun kv => kv.2.size)).sum

/-- Modelled from the spec: global persisted tile count —
the number of tile-kind resources in the store. -/
def tileCount (s : Store) : Nat :=
  (s.resources.filter (fun kv => kv.1.kind = Kind.tile)).length

/-- One comparison step of the LRU scan: keep the entry with the smaller
`accessedAt`; on ties keep the earlier (insertion-order) entry. -/
def lruPick (best : Option (Key × Resource)) (kv : Key × Resource) :
    Option (Key × Resource) :=
  match best with
  | none => some kv
  | some b => if kv.2.accessedAt < b.2.accessedAt then some kv else some b

/-- Modelled from the spec: the ambient-eviction victim — the
least-recently-accessed unlinked entry, ties broken by insertion order
(the first entry in table order attaining the minimal `accessedAt`). -/
def lruKey (s : Store) : Option Key :=
  ((ambientOf s.links s.resources).foldl lruPick none).map Prod.fst

/-- Modelled from the spec: the AmbientCache eviction loop — "loop continues
until under the configured maximum or no evictable entries remain".  The
fuel argument bounds the iteration count; each iteration evicts one entry. -/
def evictLoopAux : Nat → Store → Store
  | 0, s => s
  | fuel + 1, s =>
    if totalAmbientSize s ≤ s.maxAmbient then s
    else
      match lruKey s with
      | none => s
      | some k => evictLoopAux fuel { s with resources := removeA s.resources k }

/-- Modelled from the spec: one full eviction pass of the AmbientCache
(the loop runs to completion; at most one entry per resource is evicted,
so the resource count bounds the iterations). -/
def evictPass (s : Store) : Store :=
  evictLoopAux s.resources.length s

/-- Modelled from the spec: an ambient-path write — "After every write,
AmbientCache evaluates total unreferenced size and evicts least-recently-used
unreferenced entries if over budget". -/
def putAmbient (s : Store) (k : Key) (payload : List Nat) (meta : Nat) : Store :=
  evictPass (s.put k payload meta)

/-- Modelled from the spec: the Downloader's quota-checked persist — "Before
persisting a tile resource, the cumulative global tile count is rechecked;
exceeding the configured limit discards the fetched payload ... and surfaces
QuotaExceededError"; otherwise the write commits and the eviction pass runs. -/
def persistChecked (s : Store) (k : Key) (payload : List Nat) (meta : Nat) :
    Except OfflineError Store :=
  if k.kind = Kind.tile ∧ lookupA s.resources k = none ∧ s.tileLimit ≤ tileCount s then
    Except.error OfflineError.quotaExceededError
  else
    Except.ok (putAmbient s k payload meta)

/-- Modelled from the spec: the supported maximum zoom level
(`0 ≤ minZoom ≤ maxZoom ≤ supported max`); the concrete value is abstract
in the spec and fixed here. -/
def supportedMaxZoom : Nat := 22

/-- Modelled from the spec: style-locator validity.  The spec leaves the
criterion abstract ("validates ... style locator"); modelled as a nonzero
locator. -/
def styleLocatorValid (locator : Nat) : Bool :=
  locator ≠ 0

/-- Modelled from the spec: `createRegion` definition validation —
"min ≤ max latitude/longitude, 0 ≤ minZoom ≤ maxZoom ≤ supported max"
and a valid style locator. -/
def validDefinition (d : RegionDef) : Bool :=
  decide (d.minLat ≤ d.maxLat) && decide (d.minLon ≤ d.maxLon) &&
  decide (d.minZoom ≤ d.maxZoom) && decide (d.maxZoom ≤ supportedMaxZoom) &&
  styleLocatorValid d.styleLocator

/-- Encodes a tile coordinate triple into a key locator. -/
def encodeTile (z x y : Nat) : Nat :=
  (z * 4194304 + x) * 4194304 + y

/-- Modelled from the spec: the tile coordinates whose tile intersects the
bounding box at one zoom level.  The spec requires only an enumeration of
intersecting tile coordinates; the projection is modelled as the linear map
of the scaled degree box onto the `2^z × 2^z` tile grid. -/
def tilesForZoom (d : RegionDef) (z : Nat) : List Key :=
  let side : Int := 2 ^ z
  let toTile : Int → Int → Int := fun v lo =>
    max 0 (min (side - 1) ((v - lo) * side / 360))
  let x1 := toTile d.minLon (-180)
  let x2 := toTile d.maxLon (-180)
  let y1 := toTile d.minLat (-90)
  let y2 := toTile d.maxLat (-90)
  (List.range (x2 + 1 - x1).toNat).flatMap (fun i =>
    (List.range (y2 + 1 - y1).toNat).map (fun j =>
      { kind := Kind.tile,
        locator := encodeTile z (x1 + i).toNat (y1 + j).toNat }))

/-- Modelled from the spec: `createRegion`'s manifest enumeration — "the
style document, its referenced sprite and glyph ranges, and every tile
coordinate whose tile intersects the bounding box at each zoom level in
range". -/
def regionManifest (d : RegionDef) : List Key :=
  [{ kind := Kind.style, locator := d.styleLocator },
   { kind := Kind.sprite, locator := d.styleLocator },
   { kind := Kind.glyph, locator := d.styleLocator }] ++
  (List.range (d.maxZoom + 1 - d.minZoom)).flatMap
    (fun i => tilesForZoom d (d.minZoom + i))

/-- Modelled from the spec: `createRegion(definition, metadata)` — validates
the definition, else fails with `InvalidRegionDefinitionError`; on success
persists an Inactive region with `manifestCount` set and returns it. -/
def createRegion (s : Store) (d : RegionDef) (md : List Nat) :
    Except OfflineError (Store × Region) :=
  if validDefinition d then
    let reg : Region :=
      { definition := d, metadata := md, state := RegState.inactive,
        manifest := regionManifest d, createdAt := s.clock }
    Except.ok
      ({ s with regions := s.regions ++ [(s.nextRegionId, reg)],
                nextRegionId := s.nextRegionId + 1,
                clock := s.clock + 1 }, reg)
  else
    Except.error OfflineError.invalidRegionDefinitionError

/-- Modelled from the spec: `deleteRegion(id)` — "fails with a state error
unless region is Inactive; on success, unlinks all its resources and deletes
the region row". -/
def deleteRegion (s : Store) (rid : Nat) : Except OfflineError Store :=
  match lookupA s.regions rid with
  | none => Except.error OfflineError.regionNotFoundError
  | some reg =>
    if reg.state = RegState.inactive then
      Except.ok
        { s with regions := s.regions.filter (fun rv => !(rv.1 = rid : Bool)),
                 links := s.links.filter (fun l => !(l.1 = rid : Bool)) }
    else
      Except.error OfflineError.regionStateError

/-- Modelled from the spec: `setRegionState(id, state)` — updates the
region's download state; already-persisted, already-linked resources are
retained. -/
def setRegionState (s : Store) (rid : Nat) (st : RegState) :
    Except OfflineError Store :=
  match lookupA s.regions rid with
  | none => Except.error OfflineError.regionNotFoundError
  | some reg =>
    Except.ok { s with regions := setA s.regions rid { reg with state := st } }

/-- The spec's per-region `completedResourceCount`: the number of this
region's `RegionResourceLink`s (one per completed manifest resource). -/
def completedResourceCount (s : Store) (rid : Nat) : Nat :=
  (s.links.filter (fun l => l.1 = rid)).length

/-- The manifest entries of a region "not yet completed"
(no link for the pair yet). -/
def pendingManifest (s : Store) (rid : Nat) (reg : Region) : List Key :=
  reg.manifest.filter (fun k => !((rid, k) ∈ s.links : Bool))

/-- Modelled from the spec: one Downloader step of an Active region download —
fetches the next pending manifest entry and commits its persist-and-link as
one indivisible operation; a quota breach discards the payload and halts the
region's remaining fetches. -/
def downloadStep (s : Store) (rid : Nat) (payload : List Nat) (meta : Nat) : Store :=
  match lookupA s.regions rid with
  | none => s
  | some reg =>
    if reg.state = RegState.active then
      match pendingManifest s rid reg with
      | [] => s
      | k :: _ =>
        match persistChecked s k payload meta with
        | Except.error _ =>
          { s with regions := setA s.regions rid { reg with state := RegState.inactive } }
        | Except.ok s1 => { s1 with links := s1.links ++ [(rid, k)] }
    else s

/-- The store-mutating operations of the offline engine, as surfaced by the
spec's application- and consumer-facing APIs. -/
inductive Op where
  | opPut (k : Key) (payload : List Nat) (meta : Nat)
  | opGet (k : Key)
  | opCreateRegion (d : RegionDef) (md : List Nat)
  | opDeleteRegion (rid : Nat)
  | opSetRegionState (rid : Nat) (st : RegState)
  | opDownloadStep (rid : Nat) (payload : List Nat) (meta : Nat)
deriving Repr, DecidableEq

/-- Modelled from the spec: the state transition of one engine operation.
Writes route through the Downloader's quota-checked persist; a failed
operation leaves the store unchanged. -/
def applyOp (s : Store) : Op → Store
  | Op.opPut k payload meta =>
    match persistChecked s k payload meta with
    | Except.error _ => s
    | Except.ok s1 => s1
  | Op.opGet k => (s.get k).2
  | Op.opCreateRegion d md =>
    match createRegion s d md with
    | Except.error _ => s
    | Except.ok (s1, _) => s1
  | Op.opDeleteRegion rid =>
    match deleteRegion s rid with
    | Except.error _ => s
    | Except.ok s1 => s1
  | Op.opSetRegionState rid st =>
    match setRegionState s rid st with
    | Except.error _ => s
    | Except.ok s1 => s1
  | Op.opDownloadStep rid payload meta => downloadStep s rid payload meta

/-- A sequence of engine operations applied in order. -/
def applyOps (s : Store) (ops : List Op) : Store :=
  ops.foldl applyOp s

/-- Modelled from the spec: the RequestRouter's in-flight bookkeeping —
`pending` maps each key with an outstanding fetch to its waiters, and
`fetches` logs every underlying network fetch started. -/
structure RouterState where
  pending : List (Key × List Nat)
  fetches : List Key
deriving Repr, DecidableEq

/-- Modelled from the spec: `resolve(key)` for a waiter — a cache hit
returns immediately; on a miss, "all concurrent resolve calls for the same
missing key during a miss share the single in-flight Downloader fetch":
if a fetch for the key is outstanding the waiter joins it, otherwise one
new underlying fetch is started. -/
def resolve (store : Store) (rs : RouterState) (w : Nat) (k : Key) : RouterState :=
  match lookupA store.resources k with
  | some _ => rs
  | none =>
    match lookupA rs.pending k with
    | some ws => { rs with pending := setA rs.pending k (ws ++ [w]) }
    | none =>
      { pending := rs.pending ++ [(k, [w])], fetches := rs.fetches ++ [k] }

/-- Modelled from the spec: fetch completion — the single result is fanned
out to all waiters of the key, whose pending entry is removed.  Returns the
list of waiters the result is delivered to. -/
def completeFetch (rs : RouterState) (k : Key) : RouterState × List Nat :=
  match lookupA rs.pending k with
  | none => (rs, [])
  | some ws => ({ rs with pending := removeA rs.pending k }, ws)

/-- Concrete fixture: a tile key. -/
def demoKeyTile1 : Key := { kind := Kind.tile, locator := 1 }

/-- Concrete fixture: a second tile key. -/
def demoKeyTile2 : Key := { kind := Kind.tile, locator := 2 }

/-- Concrete fixture: a style key. -/
def demoKeyStyle : Key := { kind := Kind.style, locator := 5 }

/-- Concrete fixture: a sprite key. -/
def demoKeySprite : Key := { kind := Kind.sprite, locator := 6 }

/-- Concrete fixture: a two-byte resource row. -/
def demoRes : Resource := { payload := [1, 2], meta := 0, accessedAt := 0 }

/-- Concrete fixture: a small valid region definition. -/
def demoDef : RegionDef :=
  { minLat := 0, minLon := 0, maxLat := 1, maxLon := 1,
    minZoom := 0, maxZoom := 1, styleLocator := 1, pixelRatio := 1 }

/-- Concrete fixture: a region row with the given state and manifest. -/
def demoRegion (st : RegState) (manifest : List Key) : Region :=
  { definition := demoDef, metadata := [], state := st,
    manifest := manifest, createdAt := 0 }

/-- Concrete fixture: a store holding one tile with tile limit 1. -/
def demoStoreC1 : Store :=
  { resources := [(demoKeyTile1, { payload := [0], meta := 0, accessedAt := 0 })],
    links := [], regions := [], maxAmbient := 10, tileLimit := 1,
    clock := 1, nextRegionId := 0 }

/-- Concrete fixture: a store with one resource shared by two regions. -/
def demoStoreShared : Store :=
  { resources := [(demoKeyStyle, demoRes)],
    links := [(1, demoKeyStyle), (2, demoKeyStyle)],
    regions := [(1, demoRegion RegState.inactive [])],
    maxAmbient := 0, tileLimit := 5, clock := 0, nextRegionId := 3 }

/-- Concrete fixture: `demoStoreShared` after region 1 is deleted. -/
def demoStoreSharedDel : Store :=
  { resources := [(demoKeyStyle, demoRes)],
    links := [(2, demoKeyStyle)],
    regions := [], maxAmbient := 0, tileLimit := 5, clock := 0, nextRegionId := 3 }

/-- Concrete fixture: a store with a half-downloaded region. -/
def demoStoreRegion : Store :=
  { resources := [(demoKeyStyle, demoRes)],
    links := [(1, demoKeyStyle)],
    regions := [(1, demoRegion RegState.inactive [demoKeyStyle, demoKeySprite])],
    maxAmbient := 9, tileLimit := 9, clock := 1, nextRegionId := 2 }

/-- Concrete fixture: pause, resume, then one download step on region 1. -/
def demoOpsResume : List Op :=
  [Op.opSetRegionState 1 RegState.inactive,
   Op.opSetRegionState 1 RegState.active,
   Op.opDownloadStep 1 [5] 0]

/-- Concrete fixture: two tile writes. -/
def demoOpsTiles : List Op :=
  [Op.opPut demoKeyTile1 [0] 0, Op.opPut demoKeyTile2 [0] 0]

end MbglOffline

namespace MbglUtil

/-- The `int32_t` bounding box handled by `mbgl::GridIndex`
(`BBox` with corners `(x1, y1)` and `(x2, y2)`). -/
structure BBox where
  x1 : Int
  y1 : Int
  x2 : Int
  y2 : Int
deriving Repr, DecidableEq

/-- Embeds `mbgl::GridIndex<T>` from the `grid_index.cpp` translation unit of
`src/mbgl/renderer/circle_bucket.cpp`: grid parameters, the flat cell array
(a function from flat cell index to the uids pushed there, in order), and the
`elements` vector of `(value, bbox)` pairs.  The derived fields `scale`,
`min` and `max` are not used by `insert`/`query` and are omitted; the
real-valued `x * scale` with `scale = n / extent` is modelled exactly as the
integer floor `⌊x * n / extent⌋`. -/
structure GridIndex (T : Type) where
  extent : Int
  n : Int
  padding : Int
  d : Int
  cells : Int → List Nat
  elements : List (T × BBox)

/-- The `GridIndex` constructor: `d = n + 2 * padding`, `d * d` empty cells,
no elements. -/
def GridIndex.init (T : Type) (extent n padding : Int) : GridIndex T :=
  { extent := extent, n := n, padding := padding, d := n + 2 * padding,
    cells := fun _ => [], elements := [] }

/-- `GridIndex::convertToCellCoord`:
`max(0.0, min(d - 1.0, floor(x * scale) + padding))` with `scale = n/extent`,
in exact integer arithmetic (`Int.fdiv` is the floor of the division). -/
def GridIndex.convertToCellCoord {T : Type} (g : GridIndex T) (x : Int) : Int :=
  max 0 (min (g.d - 1) (Int.fdiv (x * g.n) g.extent + g.padding))

/-- The cell coordinates visited by `for (c = a; c <= b; c++)`. -/
def cellRange (a b : Int) : List Int :=
  (List.range (b + 1 - a).toNat).map (fun (i : Nat) => a + (i : Int))

/-- `cells[cellIndex].push_back(uid)` as a functional update of the flat
cell array. -/
def pushCell (cells : Int → List Nat) (idx : Int) (uid : Nat) : Int → List Nat :=
  fun j => if j = idx then cells j ++ [uid] else cells j

/-- `GridIndex::insert`: pushes `uid = elements.size()` into every cell in
the bbox's cell range (outer loop over x, inner over y, cell index
`d * y + x`), then appends `(t, bbox)` to `elements`. -/
def GridIndex.insert {T : Type} (g : GridIndex T) (t : T) (bbox : BBox) : GridIndex T :=
  let uid := g.elements.length
  let cx1 := g.convertToCellCoord bbox.x1
  let cy1 := g.convertToCellCoord bbox.y1
  let cx2 := g.convertToCellCoord bbox.x2
  let cy2 := g.convertToCellCoord bbox.y2
  let newCells := (cellRange cx1 cx2).foldl
    (fun cs x => (cellRange cy1 cy2).foldl
      (fun cs2 y => pushCell cs2 (g.d * y + x) uid) cs) g.cells
  { g with cells := newCells, elements := g.elements ++ [(t, bbox)] }

/-- The box-overlap test of `GridIndex::query`:
`queryBBox.x1 <= bbox.x2 && queryBBox.y1 <= bbox.y2 &&
queryBBox.x2 >= bbox.x1 && queryBBox.y2 >= bbox.y1`. -/
def bboxIntersects (q b : BBox) : Bool :=
  decide (q.x1 ≤ b.x2) && decide (q.y1 ≤ b.y2) &&
  decide (q.x2 ≥ b.x1) && decide (q.y2 ≥ b.y1)

/-- One iteration of the `query` inner loop on a single uid: a uid already
in `seenUids` is skipped; otherwise it is marked seen and, when the stored
bbox intersects the query bbox, `elements.at(uid)` is appended to the
result (kept here with its uid tag). -/
def queryStep {T : Type} (g : GridIndex T) (q : BBox)
    (acc : List Nat × List (Nat × T)) (uid : Nat) : List Nat × List (Nat × T) :=
  if uid ∈ acc.1 then acc
  else
    match g.elements.get? uid with
    | none => (acc.1 ++ [uid], acc.2)
    | some (t, bbox) =>
      if bboxIntersects q bbox then (acc.1 ++ [uid], acc.2 ++ [(uid, t)])
      else (acc.1 ++ [uid], acc.2)

/-- The uids encountered by the `query` cell loops, in visiting order
(outer loop over x, inner over y, then the cell's list in order). -/
def GridIndex.visitedUids {T : Type} (g : GridIndex T) (q : BBox) : List Nat :=
  (cellRange (g.convertToCellCoord q.x1) (g.convertToCellCoord q.x2)).flatMap fun x =>
    (cellRange (g.convertToCellCoord q.y1) (g.convertToCellCoord q.y2)).flatMap fun y =>
      g.cells (g.d * y + x)

/-- `GridIndex::query` with each result tagged by the uid of the insertion
that produced it (the source pushes `pair.first`; the tag only records
which insertion each result came from). -/
def GridIndex.queryTagged {T : Type} (g : GridIndex T) (q : BBox) : List (Nat × T) :=
  ((g.visitedUids q).foldl (queryStep g q) ([], [])).2

/-- `GridIndex::query`: the result values in order. -/
def GridIndex.query {T : Type} (g : GridIndex T) (q : BBox) : List T :=
  (g.queryTagged q).map Prod.snd

/-- A sequence of `insert` calls applied in order. -/
def GridIndex.insertAll {T : Type} (g : GridIndex T) (items : List (T × BBox)) :
    GridIndex T :=
  items.foldl (fun g2 tb => g2.insert tb.1 tb.2) g

/-- The cell-array/elements consistency invariant of a `GridIndex`: a uid is
recorded in exactly the cells covered by its element's bbox cell range. -/
def GridIndex.cellsOk {T : Type} (g : GridIndex T) : Prop :=
  ∀ (idx : Int) (uid : Nat), uid ∈ g.cells idx ↔
    ∃ t b, g.elements.get? uid = some (t, b) ∧
      ∃ cx ∈ cellRange (g.convertToCellCoord b.x1) (g.convertToCellCoord b.x2),
      ∃ cy ∈ cellRange (g.convertToCellCoord b.y1) (g.convertToCellCoord b.y2),
      idx = g.d * cy + cx

/-- A bounding box with ordered coordinates. -/
def BBox.wf (b : BBox) : Prop :=
  b.x1 ≤ b.x2 ∧ b.y1 ≤ b.y2

/-- A bounding box with ordered coordinates lying within the grid extent. -/
def BBox.wfWithin (b : BBox) (extent : Int) : Prop :=
  b.x1 ≤ b.x2 ∧ b.y1 ≤ b.y2 ∧ 0 ≤ b.x1 ∧ b.x2 ≤ extent ∧ 0 ≤ b.y1 ∧ b.y2 ≤ extent

instance (b : BBox) : Decidable (BBox.wf b) :=
  inferInstanceAs (Decidable (b.x1 ≤ b.x2 ∧ b.y1 ≤ b.y2))

instance (b : BBox) (extent : Int) : Decidable (BBox.wfWithin b extent) :=
  inferInstanceAs (Decidable
    (b.x1 ≤ b.x2 ∧ b.y1 ≤ b.y2 ∧ 0 ≤ b.x1 ∧ b.x2 ≤ extent ∧ 0 ≤ b.y1 ∧ b.y2 ≤ extent))

end MbglUtil

namespace MbglOffline

theorem lookupA_setA_self {κ β : Type} [DecidableEq κ] (l : List (κ × β)) (k : κ) (v : β) :
    lookupA (setA l k v) k = some v := by
  induction l with
  | nil => simp [setA, lookupA]
  | cons kv rest ih =>
    by_cases h : kv.1 = k
    · simp [setA, lookupA, h]
    · simp [setA, lookupA, h, ih]

theorem lookupA_setA_ne {κ β : Type} [DecidableEq κ] (l : List (κ × β)) (k k' : κ) (v : β)
    (h : k' ≠ k) : lookupA (setA l k v) k' = lookupA l k' := by
  induction l with
  | nil => simp [setA, lookupA, Ne.symm h]
  | cons kv rest ih =>
    by_cases hk : kv.1 = k
    · simp [setA, lookupA, hk, Ne.symm h]
    · by_cases hk' : kv.1 = k'
      · simp [setA, lookupA, hk, hk', h]
      · simp [setA, lookupA, hk, hk', ih]

theorem lookupA_removeA_ne {κ β : Type} [DecidableEq κ] (l : List (κ × β)) (k k' : κ)
    (h : k' ≠ k) : lookupA (removeA l k) k' = lookupA l k' := by
  induction l with
  | nil => simp [removeA, lookupA]
  | cons kv rest ih =>
    by_cases hk : kv.1 = k
    · simp [removeA, lookupA, hk, Ne.symm h]
    · by_cases hk' : kv.1 = k'
      · simp [removeA, lookupA, hk, hk', h]
      · simp [removeA, lookupA, hk, hk', ih]

/-- C2: for every key and payload, `get(key)` immediately after
`put(key, payload, meta)` returns a resource whose payload is byte-identical
to the payload that was put. -/
theorem c2_put_get_roundtrip (s : Store) (k : Key) (payload : List Nat) (meta : Nat) :
    ∃ r : Resource, ((s.put k payload meta).get k).1 = some r ∧ r.payload = payload := by
  refine ⟨{ payload := payload, meta := meta, accessedAt := s.clock }, ?_, rfl⟩
  unfold Store.put Store.get
  simp only [lookupA_setA_self]
  by_cases h : linkedIn s.links k <;> simp [h]

theorem lookupA_filter_out_self {κ β : Type} [DecidableEq κ] (l : List (κ × β)) (k : κ) :
    lookupA (l.filter (fun kv => !(kv.1 = k : Bool))) k = none := by
  induction l with
  | nil => rfl
  | cons kv rest ih =>
    by_cases h : kv.1 = k
    · simp [List.filter_cons, h, ih]
    · simp [List.filter_cons, lookupA, h, ih]

/-- C5: `deleteRegion(id)` returns `RegionStateError` whenever the region's
state is not `Inactive`; when it is `Inactive` it succeeds, removes all of
the region's links and the region row, leaves the resource table unchanged,
and any resource exclusively linked to that region has zero links afterwards
(ambient-eligible). -/
theorem c5_delete_region (s : Store) (rid : Nat) (reg : Region)
    (hreg : lookupA s.regions rid = some reg) :
    (reg.state ≠ RegState.inactive →
      deleteRegion s rid = Except.error OfflineError.regionStateError)
    ∧ (reg.state = RegState.inactive →
      ∃ s', deleteRegion s rid = Except.ok s'
        ∧ lookupA s'.regions rid = none
        ∧ (∀ k : Key, (rid, k) ∉ s'.links)
        ∧ s'.resources = s.resources
        ∧ (∀ k : Key, (∀ l ∈ s.links, l.2 = k → l.1 = rid) →
            linkedIn s'.links k = false)) := by
  constructor
  · intro hst
    unfold deleteRegion
    rw [hreg]
    simp [hst]
  · intro hst
    have hdel : deleteRegion s rid = Except.ok
        { s with regions := s.regions.filter (fun rv => !(rv.1 = rid : Bool)),
                 links := s.links.filter (fun l => !(l.1 = rid : Bool)) } := by
      unfold deleteRegion
      rw [hreg]
      simp [hst]
    refine ⟨_, hdel, ?_, ?_, rfl, ?_⟩
    · exact lookupA_filter_out_self s.regions rid
    · intro k hk
      simp [List.mem_filter] at hk
    · intro k hexcl
      rw [linkedIn, List.any_eq_false]
      intro l hl hk
      rw [List.mem_filter] at hl
      have h1 : l.2 = k := by simpa using hk
      have h2 : l.1 = rid := hexcl l hl.1 h1
      simp [h2] at hl

/-- C6: `createRegion` fails with `InvalidRegionDefinitionError` exactly when
the bounds are invalid (min latitude/longitude greater than max, or not
`minZoom ≤ maxZoom ≤ supported max`) or the style locator is invalid;
otherwise it persists and returns a new region whose state is `Inactive` and
whose `manifestCount` equals the enumerated manifest size. -/
theorem c6_create_region (s : Store) (d : RegionDef) (md : List Nat) :
    ((createRegion s d md = Except.error OfflineError.invalidRegionDefinitionError) ↔
      ¬(d.minLat ≤ d.maxLat ∧ d.minLon ≤ d.maxLon ∧ d.minZoom ≤ d.maxZoom ∧
        d.maxZoom ≤ supportedMaxZoom ∧ styleLocatorValid d.styleLocator = true))
    ∧ (validDefinition d = true →
      ∃ (s' : Store) (reg : Region), createRegion s d md = Except.ok (s', reg)
        ∧ reg.state = RegState.inactive
        ∧ reg.manifestCount = (regionManifest d).length
        ∧ (s.nextRegionId, reg) ∈ s'.regions) := by
  have hvd : validDefinition d = true ↔
      (d.minLat ≤ d.maxLat ∧ d.minLon ≤ d.maxLon ∧ d.minZoom ≤ d.maxZoom ∧
        d.maxZoom ≤ supportedMaxZoom ∧ styleLocatorValid d.styleLocator = true) := by
    unfold validDefinition
    simp [Bool.and_eq_true, and_assoc]
  constructor
  · by_cases hv : validDefinition d
    · rw [hvd] at hv
      simp only [createRegion]
      rw [if_pos (hvd.mpr hv)]
      simp [hv]
    · have hnot : ¬(d.minLat ≤ d.maxLat ∧ d.minLon ≤ d.maxLon ∧ d.minZoom ≤ d.maxZoom ∧
          d.maxZoom ≤ supportedMaxZoom ∧ styleLocatorValid d.styleLocator = true) := by
        intro hc
        exact hv (hvd.mpr hc)
      simp only [createRegion]
      rw [if_neg hv]
      simp [hnot]
  · intro hv
    have hcr : createRegion s d md = Except.ok
        ({ s with
            regions := s.regions ++ [(s.nextRegionId,
              { definition := d, metadata := md, state := RegState.inactive,
                manifest := regionManifest d, createdAt := s.clock })],
            nextRegionId := s.nextRegionId + 1,
            clock := s.clock + 1 },
         { definition := d, metadata := md, state := RegState.inactive,
           manifest := regionManifest d, createdAt := s.clock }) := by
      simp only [createRegion]
      rw [if_pos hv]
    refine ⟨_, _, hcr, rfl, rfl, ?_⟩
    exact List.mem_append_right _ (List.mem_singleton.mpr rfl)

theorem foldl_lruPick_mem :
    ∀ (l : List (Key × Resource)) (acc : Option (Key × Resource)) (kv : Key × Resource),
      l.foldl lruPick acc = some kv → acc = some kv ∨ kv ∈ l := by
  intro l
  induction l with
  | nil =>
    intro acc kv h
    exact Or.inl h
  | cons x rest ih =>
    intro acc kv h
    rw [List.foldl_cons] at h
    rcases ih (lruPick acc x) kv h with h1 | h1
    · cases acc with
      | none =>
        simp [lruPick] at h1
        exact Or.inr (by simp [h1.symm])
      | some b =>
        simp only [lruPick] at h1
        by_cases hc : x.2.accessedAt < b.2.accessedAt
        · rw [if_pos hc] at h1
          exact Or.inr (by simp [(Option.some_inj.mp h1).symm])
        · rw [if_neg hc] at h1
          exact Or.inl h1
    · exact Or.inr (List.mem_cons_of_mem _ h1)

theorem lruKey_unlinked (s : Store) (k : Key) (h : lruKey s = some k) :
    linkedIn s.links k = false := by
  unfold lruKey at h
  rcases Option.map_eq_some'.mp h with ⟨kv, hkv, hfst⟩
  rcases foldl_lruPick_mem _ none kv hkv with h1 | h1
  · exact absurd h1 (by simp)
  · have := List.mem_filter.mp h1
    rw [← hfst]
    simpa using this.2

theorem evictLoopAux_other_fields (fuel : Nat) :
    ∀ s : Store, (evictLoopAux fuel s).links = s.links
      ∧ (evictLoopAux fuel s).regions = s.regions
      ∧ (evictLoopAux fuel s).maxAmbient = s.maxAmbient
      ∧ (evictLoopAux fuel s).tileLimit = s.tileLimit
      ∧ (evictLoopAux fuel s).clock = s.clock
      ∧ (evictLoopAux fuel s).nextRegionId = s.nextRegionId := by
  induction fuel with
  | zero =>
    intro s
    exact ⟨rfl, rfl, rfl, rfl, rfl, rfl⟩
  | succ n ih =>
    intro s
    unfold evictLoopAux
    by_cases h1 : totalAmbientSize s ≤ s.maxAmbient
    · rw [if_pos h1]
      exact ⟨rfl, rfl, rfl, rfl, rfl, rfl⟩
    · rw [if_neg h1]
      cases hlk : lruKey s with
      | none => exact ⟨rfl, rfl, rfl, rfl, rfl, rfl⟩
      | some k => exact ih _

theorem evictLoopAux_preserves_linked (fuel : Nat) :
    ∀ (s : Store) (k : Key) (r : Resource), linkedIn s.links k = true →
      lookupA s.resources k = some r →
      lookupA (evictLoopAux fuel s).resources k = some r := by
  induction fuel with
  | zero =>
    intro s k r _ hr
    exact hr
  | succ n ih =>
    intro s k r hl hr
    unfold evictLoopAux
    by_cases h1 : totalAmbientSize s ≤ s.maxAmbient
    · rw [if_pos h1]
      exact hr
    · rw [if_neg h1]
      cases hlk : lruKey s with
      | none => exact hr
      | some k' =>
        have hk' : linkedIn s.links k' = false := lruKey_unlinked s k' hlk
        have hne : k ≠ k' := by
          intro he
          rw [he] at hl
          exact Bool.noConfusion (hl.symm.trans hk')
        exact ih _ k r hl (by rw [lookupA_removeA_ne s.resources k' k hne]; exact hr)

/-- C3: a resource with at least one `RegionResourceLink` is never removed:
an ambient eviction pass keeps every linked resource, and for two distinct
regions sharing a resource, `deleteRegion(R1)` leaves the resource table
unchanged and keeps R2's link. -/
theorem c3_linked_never_removed (s : Store) (k : Key) (r : Resource)
    (rid1 rid2 : Nat) (s' : Store) :
    (linkedIn s.links k = true → lookupA s.resources k = some r →
      lookupA (evictPass s).resources k = some r)
    ∧ (deleteRegion s rid1 = Except.ok s' → rid2 ≠ rid1 → (rid2, k) ∈ s.links →
      s'.resources = s.resources ∧ (rid2, k) ∈ s'.links) := by
  constructor
  · intro hl hr
    exact evictLoopAux_preserves_linked s.resources.length s k r hl hr
  · intro hdel hne hmem
    unfold deleteRegion at hdel
    split at hdel
    · exact absurd hdel (by simp)
    · split at hdel
      · have hs' := Except.ok.inj hdel
        subst hs'
        refine ⟨rfl, ?_⟩
        exact List.mem_filter.mpr ⟨hmem, by simp [hne]⟩
      · exact absurd hdel (by simp)

theorem foldl_lruPick_some :
    ∀ (l : List (Key × Resource)) (b : Key × Resource),
      ∃ kv, l.foldl lruPick (some b) = some kv := by
  intro l
  induction l with
  | nil =>
    intro b
    exact ⟨b, rfl⟩
  | cons x rest ih =>
    intro b
    rw [List.foldl_cons]
    have hstep : lruPick (some b) x =
        if x.2.accessedAt < b.2.accessedAt then some x else some b := rfl
    rw [hstep]
    by_cases hc : x.2.accessedAt < b.2.accessedAt
    · rw [if_pos hc]
      exact ih x
    · rw [if_neg hc]
      exact ih b

theorem lruKey_none (s : Store) (h : lruKey s = none) :
    ambientOf s.links s.resources = [] := by
  unfold lruKey at h
  have hf := Option.map_eq_none'.mp h
  cases hamb : ambientOf s.links s.resources with
  | nil => rfl
  | cons x rest =>
    rw [hamb, List.foldl_cons] at hf
    rw [show lruPick none x = some x from rfl] at hf
    rcases foldl_lruPick_some rest x with ⟨kv2, hkv2⟩
    rw [hkv2] at hf
    exact Option.noConfusion hf

theorem ambient_removeA_len (links : List (Nat × Key)) :
    ∀ (l : List (Key × Resource)) (k : Key),
      (∃ r, (k, r) ∈ ambientOf links l) →
      (ambientOf links (removeA l k)).length + 1 = (ambientOf links l).length := by
  intro l
  induction l with
  | nil =>
    intro k h
    rcases h with ⟨r, hr⟩
    exact absurd hr (by simp [ambientOf])
  | cons kv rest ih =>
    intro k h
    rcases h with ⟨r, hr⟩
    have hpredk : (!(linkedIn links k)) = true := by
      have := (List.mem_filter.mp hr).2
      simpa using this
    by_cases hk : kv.1 = k
    · have hremove : removeA (kv :: rest) k = rest := by
        simp [removeA, hk]
      have hpredkv : (!(linkedIn links kv.1)) = true := by
        rw [hk]
        exact hpredk
      rw [hremove]
      unfold ambientOf
      rw [List.filter_cons, if_pos hpredkv]
      simp
    · have hremove : removeA (kv :: rest) k = kv :: removeA rest k := by
        simp [removeA, hk]
      have hmem : (k, r) ∈ ambientOf links rest := by
        rcases List.mem_filter.mp hr with ⟨hin, hpred⟩
        rcases List.mem_cons.mp hin with he | hin2
        · exact absurd (congrArg Prod.fst he.symm) (by simpa using hk)
        · exact List.mem_filter.mpr ⟨hin2, hpred⟩
      have := ih k ⟨r, hmem⟩
      rw [hremove]
      unfold ambientOf
      rw [List.filter_cons, List.filter_cons]
      by_cases hpkv : (!(linkedIn links kv.1)) = true
      · rw [if_pos hpkv, if_pos hpkv]
        unfold ambientOf at this
        simp only [List.length_cons]
        omega
      · rw [if_neg hpkv, if_neg hpkv]
        exact this

theorem evictLoopAux_bound :
    ∀ (fuel : Nat) (s : Store),
      (ambientOf s.links s.resources).length ≤ fuel →
      totalAmbientSize (evictLoopAux fuel s) ≤ s.maxAmbient := by
  intro fuel
  induction fuel with
  | zero =>
    intro s hlen
    have hamb : ambientOf s.links s.resources = [] :=
      List.length_eq_zero.mp (Nat.le_zero.mp hlen)
    unfold evictLoopAux totalAmbientSize
    rw [hamb]
    simp
  | succ n ih =>
    intro s hlen
    unfold evictLoopAux
    by_cases h1 : totalAmbientSize s ≤ s.maxAmbient
    · rw [if_pos h1]
      exact h1
    · rw [if_neg h1]
      cases hlk : lruKey s with
      | none =>
        have hamb := lruKey_none s hlk
        have : totalAmbientSize s = 0 := by
          unfold totalAmbientSize
          rw [hamb]
          simp
        omega
      | some k =>
        have hk : ∃ r, (k, r) ∈ ambientOf s.links s.resources := by
          unfold lruKey at hlk
          rcases Option.map_eq_some'.mp hlk with ⟨kv, hkv, hfst⟩
          rcases foldl_lruPick_mem _ none kv hkv with hc | hc
          · exact absurd hc (by simp)
          · exact ⟨kv.2, by rw [← hfst]; exact hc⟩
        have hlen' := ambient_removeA_len s.links s.resources k hk
        have hrec : (ambientOf s.links (removeA s.resources k)).length ≤ n := by
          omega
        have := ih { s with resources := removeA s.resources k } hrec
        exact this

theorem sum_ambient_setA (links : List (Nat × Key)) :
    ∀ (l : List (Key × Resource)) (k : Key) (r : Resource),
      ((ambientOf links (setA l k r)).map (fun kv => kv.2.size)).sum ≤
        ((ambientOf links l).map (fun kv => kv.2.size)).sum + r.size := by
  intro l
  induction l with
  | nil =>
    intro k r
    unfold ambientOf setA
    rw [List.filter_cons]
    by_cases hp : (!(linkedIn links k)) = true
    · rw [if_pos hp]
      simp
    · rw [if_neg hp]
      simp
  | cons kv rest ih =>
    intro k r
    by_cases hk : kv.1 = k
    · have hset : setA (kv :: rest) k r = (k, r) :: rest := by
        simp [setA, hk]
      rw [hset]
      unfold ambientOf
      rw [List.filter_cons, List.filter_cons]
      have hpeq : (!(linkedIn links k)) = (!(linkedIn links kv.1)) := by
        rw [hk]
      by_cases hp : (!(linkedIn links kv.1)) = true
      · rw [if_pos hp, if_pos (hpeq.trans hp)]
        simp only [List.map_cons, List.sum_cons]
        have : (0 : Nat) ≤ kv.2.size := Nat.zero_le _
        omega
      · rw [if_neg hp, if_neg (fun hc => hp (hpeq.symm.trans hc))]
        omega
    · have hset : setA (kv :: rest) k r = kv :: setA rest k r := by
        simp [setA, hk]
      rw [hset]
      unfold ambientOf
      rw [List.filter_cons, List.filter_cons]
      by_cases hp : (!(linkedIn links kv.1)) = true
      · rw [if_pos hp, if_pos hp]
        simp only [List.map_cons, List.sum_cons]
        have := ih k r
        unfold ambientOf at this
        omega
      · rw [if_neg hp, if_neg hp]
        exact ih k r

theorem put_fields (s : Store) (k : Key) (p : List Nat) (m : Nat) :
    (s.put k p m).links = s.links ∧ (s.put k p m).maxAmbient = s.maxAmbient ∧
      (s.put k p m).regions = s.regions ∧ (s.put k p m).tileLimit = s.tileLimit := by
  exact ⟨rfl, rfl, rfl, rfl⟩

theorem putAmbient_maxAmbient (s : Store) (k : Key) (p : List Nat) (m : Nat) :
    (putAmbient s k p m).maxAmbient = s.maxAmbient := by
  unfold putAmbient evictPass
  exact (evictLoopAux_other_fields _ _).2.2.1

theorem evictPass_bound (s : Store) :
    totalAmbientSize (evictPass s) ≤ s.maxAmbient := by
  unfold evictPass
  exact evictLoopAux_bound s.resources.length s
    (List.length_filter_le _ _)

/-- C4: the ambient total (size of resources with zero region links) exceeds
the configured maximum by at most the size of the one in-flight write while
a put is uncommitted, and the eviction pass that completes every put drives
the ambient total back under the bound, so after any non-empty sequence of
ambient puts the total is within the configured maximum. -/
theorem c4_ambient_bound (s : Store) (k : Key) (p : List Nat) (m : Nat)
    (writes : List (Key × List Nat × Nat)) :
    (totalAmbientSize s ≤ s.maxAmbient →
      totalAmbientSize (s.put k p m) ≤ s.maxAmbient + p.length)
    ∧ totalAmbientSize (evictPass s) ≤ s.maxAmbient
    ∧ (writes ≠ [] →
      totalAmbientSize (writes.foldl (fun st w => putAmbient st w.1 w.2.1 w.2.2) s)
        ≤ s.maxAmbient) := by
  refine ⟨?_, evictPass_bound s, ?_⟩
  · intro hle
    have := sum_ambient_setA s.links s.resources k
      { payload := p, meta := m, accessedAt := s.clock }
    unfold Store.put totalAmbientSize
    simp only []
    calc ((ambientOf s.links
            (setA s.resources k { payload := p, meta := m, accessedAt := s.clock })).map
            (fun kv => kv.2.size)).sum
        ≤ ((ambientOf s.links s.resources).map (fun kv => kv.2.size)).sum + p.length :=
          this
      _ ≤ s.maxAmbient + p.length := by
          unfold totalAmbientSize at hle
          omega
  · induction writes generalizing s with
    | nil =>
      intro hne
      exact absurd rfl hne
    | cons w rest ih =>
      intro _
      rw [List.foldl_cons]
      cases rest with
      | nil =>
        have hb := evictPass_bound (s.put w.1 w.2.1 w.2.2)
        unfold putAmbient
        simpa using hb
      | cons w2 rest2 =>
        have := ih (putAmbient s w.1 w.2.1 w.2.2) (by simp)
        rw [putAmbient_maxAmbient] at this
        exact this

theorem filterKey_setA (p : Key → Bool) :
    ∀ (l : List (Key × Resource)) (k : Key) (r : Resource),
      ((setA l k r).filter (fun kv => p kv.1)).length =
        (if lookupA l k = none then
          (l.filter (fun kv => p kv.1)).length + (if p k then 1 else 0)
        else (l.filter (fun kv => p kv.1)).length) := by
  intro l
  induction l with
  | nil =>
    intro k r
    have hlook : lookupA ([] : List (Key × Resource)) k = none := rfl
    rw [hlook]
    simp only [setA, List.filter_cons, List.filter_nil, if_pos rfl]
    by_cases hp : p k
    · simp [hp]
    · simp [hp]
  | cons kv rest ih =>
    intro k r
    by_cases hk : kv.1 = k
    · subst hk
      have hset : setA (kv :: rest) kv.1 r = (kv.1, r) :: rest := by
        simp [setA]
      have hlook : lookupA (kv :: rest) kv.1 = some kv.2 := by
        simp [lookupA]
      rw [hset, hlook]
      simp only [List.filter_cons]
      by_cases hp : p kv.1
      · simp [hp]
      · simp [hp]
    · have hset : setA (kv :: rest) k r = kv :: setA rest k r := by
        simp [setA, hk]
      have hlook : lookupA (kv :: rest) k = lookupA rest k := by
        simp [lookupA, hk]
      rw [hset, hlook]
      simp only [List.filter_cons]
      by_cases hp : p kv.1
      · by_cases hl : lookupA rest k = none
        · by_cases hpk : p k
          · simp [hp, hl, hpk, ih k r]
          · simp [hp, hl, hpk, ih k r]
        · simp [hp, hl, ih k r]
      · by_cases hl : lookupA rest k = none
        · simp [hp, hl, ih k r]
        · simp [hp, hl, ih k r]

theorem filterKey_removeA (p : Key → Bool) :
    ∀ (l : List (Key × Resource)) (k : Key),
      ((removeA l k).filter (fun kv => p kv.1)).length ≤
        (l.filter (fun kv => p kv.1)).length := by
  intro l
  induction l with
  | nil =>
    intro k
    exact Nat.le_refl _
  | cons kv rest ih =>
    intro k
    by_cases hk : kv.1 = k
    · have : removeA (kv :: rest) k = rest := by
        simp [removeA, hk]
      rw [this, List.filter_cons]
      by_cases hp : p kv.1
      · rw [if_pos (by simpa using hp)]
        simp only [List.length_cons]
        omega
      · rw [if_neg (by simpa using hp)]
    · have : removeA (kv :: rest) k = kv :: removeA rest k := by
        simp [removeA, hk]
      rw [this, List.filter_cons, List.filter_cons]
      by_cases hp : p kv.1
      · rw [if_pos (by simpa using hp), if_pos (by simpa using hp)]
        simp only [List.length_cons]
        exact Nat.succ_le_succ (ih k)
      · rw [if_neg (by simpa using hp), if_neg (by simpa using hp)]
        exact ih k

theorem evictLoopAux_tileCount :
    ∀ (fuel : Nat) (s : Store), tileCount (evictLoopAux fuel s) ≤ tileCount s := by
  intro fuel
  induction fuel with
  | zero =>
    intro s
    exact Nat.le_refl _
  | succ n ih =>
    intro s
    unfold evictLoopAux
    by_cases h1 : totalAmbientSize s ≤ s.maxAmbient
    · rw [if_pos h1]
    · rw [if_neg h1]
      cases hlk : lruKey s with
      | none => exact Nat.le_refl _
      | some k =>
        refine Nat.le_trans (ih _) ?_
        unfold tileCount
        exact filterKey_removeA (fun k2 => (k2.kind = Kind.tile : Bool)) s.resources k

theorem persistChecked_tileCount (s : Store) (k : Key) (p : List Nat) (m : Nat)
    (s1 : Store) (hok : persistChecked s k p m = Except.ok s1) :
    s1.tileLimit = s.tileLimit
      ∧ (tileCount s ≤ s.tileLimit → tileCount s1 ≤ s.tileLimit) := by
  unfold persistChecked at hok
  by_cases hg : k.kind = Kind.tile ∧ lookupA s.resources k = none ∧ s.tileLimit ≤ tileCount s
  · rw [if_pos hg] at hok
    exact absurd hok (by simp)
  · rw [if_neg hg] at hok
    have hs1 : putAmbient s k p m = s1 := Except.ok.inj hok
    subst hs1
    constructor
    · unfold putAmbient evictPass
      exact (evictLoopAux_other_fields _ _).2.2.2.1
    · intro h
      refine Nat.le_trans (evictLoopAux_tileCount _ _) ?_
      have hput : tileCount (s.put k p m) =
          (if lookupA s.resources k = none then
            tileCount s + (if (k.kind = Kind.tile : Bool) then 1 else 0)
          else tileCount s) := by
        unfold tileCount Store.put
        exact filterKey_setA (fun k2 => (k2.kind = Kind.tile : Bool)) s.resources k _
      by_cases hl : lookupA s.resources k = none
      · rw [hput, if_pos hl]
        by_cases ht : k.kind = Kind.tile
        · have hlt : tileCount s < s.tileLimit := by
            rcases Nat.lt_or_ge (tileCount s) s.tileLimit with hc | hc
            · exact hc
            · exact absurd ⟨ht, hl, hc⟩ hg
          rw [if_pos (by simpa using ht)]
          omega
        · rw [if_neg (by simpa using ht)]
          omega
      · rw [hput, if_neg hl]
        exact h

theorem applyOp_tileCount (s : Store) (op : Op) :
    (applyOp s op).tileLimit = s.tileLimit
      ∧ (tileCount s ≤ s.tileLimit → tileCount (applyOp s op) ≤ s.tileLimit) := by
  cases op with
  | opPut k p m =>
    simp only [applyOp]
    cases hpc : persistChecked s k p m with
    | error e => exact ⟨rfl, fun h => h⟩
    | ok s1 => exact persistChecked_tileCount s k p m s1 hpc
  | opGet k =>
    simp only [applyOp]
    unfold Store.get
    cases hl : lookupA s.resources k with
    | none => exact ⟨rfl, fun h => h⟩
    | some r =>
      dsimp only
      by_cases hlink : linkedIn s.links k
      · rw [if_pos hlink]
        exact ⟨rfl, fun h => h⟩
      · rw [if_neg hlink]
        have hcnt : tileCount { s with
            resources := setA s.resources k { r with accessedAt := s.clock },
            clock := s.clock + 1 } = tileCount s := by
          unfold tileCount
          have := filterKey_setA (fun k2 => (k2.kind = Kind.tile : Bool)) s.resources k
            { r with accessedAt := s.clock }
          rw [if_neg (by simp [hl])] at this
          exact this
        exact ⟨rfl, fun h => by rw [hcnt]; exact h⟩
  | opCreateRegion d md =>
    simp only [applyOp]
    unfold createRegion
    by_cases hv : validDefinition d
    · rw [if_pos hv]
      exact ⟨rfl, fun h => h⟩
    · rw [if_neg hv]
      exact ⟨rfl, fun h => h⟩
  | opDeleteRegion rid =>
    simp only [applyOp]
    unfold deleteRegion
    cases hreg : lookupA s.regions rid with
    | none => exact ⟨rfl, fun h => h⟩
    | some reg =>
      dsimp only
      by_cases hst : reg.state = RegState.inactive
      · rw [if_pos hst]
        exact ⟨rfl, fun h => h⟩
      · rw [if_neg hst]
        exact ⟨rfl, fun h => h⟩
  | opSetRegionState rid st =>
    simp only [applyOp]
    unfold setRegionState
    cases hreg : lookupA s.regions rid with
    | none => exact ⟨rfl, fun h => h⟩
    | some reg => exact ⟨rfl, fun h => h⟩
  | opDownloadStep rid p m =>
    simp only [applyOp]
    unfold downloadStep
    cases hreg : lookupA s.regions rid with
    | none => exact ⟨rfl, fun h => h⟩
    | some reg =>
      dsimp only
      by_cases hst : reg.state = RegState.active
      · rw [if_pos hst]
        cases hpend : pendingManifest s rid reg with
        | nil => exact ⟨rfl, fun h => h⟩
        | cons k rest =>
          dsimp only
          cases hpc : persistChecked s k p m with
          | error e => exact ⟨rfl, fun h => h⟩
          | ok s1 => exact persistChecked_tileCount s k p m s1 hpc
      · rw [if_neg hst]
        exact ⟨rfl, fun h => h⟩

/-- C1: starting from an empty store with tile-count limit `n`, no sequence
of engine operations ever leaves more than `n` persisted tile resources, and
a quota check before each tile write commit rejects (with
`QuotaExceededError`, discarding the payload) any new tile write once the
limit is reached. -/
theorem c1_tile_quota (maxAmb limit : Nat) (ops : List Op)
    (s : Store) (k : Key) (p : List Nat) (m : Nat) :
    tileCount (applyOps (initStore maxAmb limit) ops) ≤ limit
    ∧ (k.kind = Kind.tile → lookupA s.resources k = none →
        s.tileLimit ≤ tileCount s →
        persistChecked s k p m = Except.error OfflineError.quotaExceededError) := by
  constructor
  · have hgen : ∀ (l : List Op) (s0 : Store), tileCount s0 ≤ s0.tileLimit →
        tileCount (applyOps s0 l) ≤ s0.tileLimit := by
      intro l
      induction l with
      | nil =>
        intro s0 h0
        exact h0
      | cons op rest ih =>
        intro s0 h0
        unfold applyOps
        rw [List.foldl_cons]
        have h1 := applyOp_tileCount s0 op
        have h2 := ih (applyOp s0 op) (by rw [h1.1]; exact h1.2 h0)
        rw [h1.1] at h2
        exact h2
    have h0 : tileCount (initStore maxAmb limit) ≤ (initStore maxAmb limit).tileLimit := by
      unfold tileCount initStore
      simp
    exact hgen ops (initStore maxAmb limit) h0
  · intro ht hl hcnt
    unfold persistChecked
    rw [if_pos ⟨ht, hl, hcnt⟩]

theorem linkedIn_of_mem (links : List (Nat × Key)) (rid : Nat) (k : Key)
    (h : (rid, k) ∈ links) : linkedIn links k = true := by
  unfold linkedIn
  rw [List.any_eq_true]
  exact ⟨(rid, k), h, by simp⟩

theorem evictLoopAux_lookup_of_linked (fuel : Nat) :
    ∀ (s : Store) (k : Key), linkedIn s.links k = true →
      lookupA (evictLoopAux fuel s).resources k = lookupA s.resources k := by
  induction fuel with
  | zero =>
    intro s k _
    rfl
  | succ n ih =>
    intro s k hl
    unfold evictLoopAux
    by_cases h1 : totalAmbientSize s ≤ s.maxAmbient
    · rw [if_pos h1]
    · rw [if_neg h1]
      cases hlk : lruKey s with
      | none => rfl
      | some k' =>
        have hk' : linkedIn s.links k' = false := lruKey_unlinked s k' hlk
        have hne : k ≠ k' := by
          intro he
          rw [he] at hl
          exact Bool.noConfusion (hl.symm.trans hk')
        rw [ih { s with resources := removeA s.resources k' } k hl]
        exact lookupA_removeA_ne s.resources k' k hne

theorem persistChecked_ok (s : Store) (k : Key) (p : List Nat) (m : Nat)
    (s1 : Store) (hok : persistChecked s k p m = Except.ok s1) :
    s1 = putAmbient s k p m := by
  unfold persistChecked at hok
  by_cases hg : k.kind = Kind.tile ∧ lookupA s.resources k = none ∧ s.tileLimit ≤ tileCount s
  · rw [if_pos hg] at hok
    exact absurd hok (by simp)
  · rw [if_neg hg] at hok
    exact (Except.ok.inj hok).symm

theorem putAmbient_links (s : Store) (k : Key) (p : List Nat) (m : Nat) :
    (putAmbient s k p m).links = s.links := by
  unfold putAmbient evictPass
  exact (evictLoopAux_other_fields _ _).1

theorem downloadStep_progress (s : Store) (rid : Nat) (p : List Nat) (m : Nat) (k : Key) :
    completedResourceCount s rid ≤ completedResourceCount (downloadStep s rid p m) rid
    ∧ ((rid, k) ∈ s.links →
      (rid, k) ∈ (downloadStep s rid p m).links
      ∧ lookupA (downloadStep s rid p m).resources k = lookupA s.resources k) := by
  unfold downloadStep
  cases hreg : lookupA s.regions rid with
  | none => exact ⟨Nat.le_refl _, fun hm => ⟨hm, rfl⟩⟩
  | some reg =>
    dsimp only
    by_cases hst : reg.state = RegState.active
    · rw [if_pos hst]
      cases hpend : pendingManifest s rid reg with
      | nil => exact ⟨Nat.le_refl _, fun hm => ⟨hm, rfl⟩⟩
      | cons k' rest =>
        dsimp only
        have hk'pending : ¬((rid, k') ∈ s.links) := by
          have hmem : k' ∈ pendingManifest s rid reg := by
            rw [hpend]
            exact List.mem_cons_self k' rest
          unfold pendingManifest at hmem
          have := (List.mem_filter.mp hmem).2
          simpa using this
        cases hpc : persistChecked s k' p m with
        | error e => exact ⟨Nat.le_refl _, fun hm => ⟨hm, rfl⟩⟩
        | ok s1 =>
          have hs1 : s1 = putAmbient s k' p m := persistChecked_ok s k' p m s1 hpc
          have hlinks1 : s1.links = s.links := by
            rw [hs1]
            exact putAmbient_links s k' p m
          constructor
          · unfold completedResourceCount
            dsimp only
            rw [hlinks1, List.filter_append, List.length_append]
            exact Nat.le_add_right _ _
          · intro hm
            have hne : k ≠ k' := by
              intro he
              rw [← he] at hk'pending
              exact hk'pending hm
            refine ⟨?_, ?_⟩
            · dsimp only
              rw [hlinks1]
              exact List.mem_append_left _ hm
            · dsimp only
              rw [hs1]
              unfold putAmbient evictPass
              rw [evictLoopAux_lookup_of_linked _ _ k
                (by
                  rw [show (s.put k' p m).links = s.links from rfl]
                  exact linkedIn_of_mem s.links rid k hm)]
              rw [show (s.put k' p m).resources =
                setA s.resources k' { payload := p, meta := m, accessedAt := s.clock }
                from rfl]
              exact lookupA_setA_ne s.resources k' k _ hne
    · rw [if_neg hst]
      exact ⟨Nat.le_refl _, fun hm => ⟨hm, rfl⟩⟩

theorem setRegionState_links_resources (s : Store) (rid : Nat) (st : RegState) :
    (applyOp s (Op.opSetRegionState rid st)).links = s.links
    ∧ (applyOp s (Op.opSetRegionState rid st)).resources = s.resources := by
  simp only [applyOp]
  unfold setRegionState
  cases hreg : lookupA s.regions rid with
  | none => exact ⟨rfl, rfl⟩
  | some reg => exact ⟨rfl, rfl⟩

/-- C7: over any sequence of `setRegionState(id, ·)` pauses/resumes and
Downloader steps for one region, the region's `completedResourceCount`
never decreases, and a resource already completed for the region stays
linked and its stored row is never overwritten (not persisted a second
time on resume). -/
theorem c7_resumability (s : Store) (rid : Nat) (k : Key) (ops : List Op)
    (hops : ∀ op ∈ ops, (∃ st, op = Op.opSetRegionState rid st) ∨
      (∃ p m, op = Op.opDownloadStep rid p m)) :
    completedResourceCount s rid ≤ completedResourceCount (applyOps s ops) rid
    ∧ ((rid, k) ∈ s.links →
      (rid, k) ∈ (applyOps s ops).links
      ∧ lookupA (applyOps s ops).resources k = lookupA s.resources k) := by
  induction ops generalizing s with
  | nil => exact ⟨Nat.le_refl _, fun hm => ⟨hm, rfl⟩⟩
  | cons op rest ih =>
    have hop := hops op (List.mem_cons_self op rest)
    have hrest : ∀ op2 ∈ rest, (∃ st, op2 = Op.opSetRegionState rid st) ∨
        (∃ p m, op2 = Op.opDownloadStep rid p m) :=
      fun op2 hm => hops op2 (List.mem_cons_of_mem op hm)
    have hstep :
        completedResourceCount s rid ≤ completedResourceCount (applyOp s op) rid
        ∧ ((rid, k) ∈ s.links →
          (rid, k) ∈ (applyOp s op).links
          ∧ lookupA (applyOp s op).resources k = lookupA s.resources k) := by
      rcases hop with ⟨st, rfl⟩ | ⟨p, m, rfl⟩
      · have h2 := setRegionState_links_resources s rid st
        constructor
        · unfold completedResourceCount
          rw [h2.1]
        · intro hm
          rw [h2.1, h2.2]
          exact ⟨hm, rfl⟩
      · exact downloadStep_progress s rid p m k
    have hihs := ih (applyOp s op) hrest
    unfold applyOps
    rw [List.foldl_cons]
    constructor
    · exact Nat.le_trans hstep.1 hihs.1
    · intro hm
      have h1 := hstep.2 hm
      have h2 := hihs.2 h1.1
      exact ⟨h2.1, h2.2.trans h1.2⟩

theorem lookupA_append_of_none {κ β : Type} [DecidableEq κ]
    (l l2 : List (κ × β)) (k : κ) (h : lookupA l k = none) :
    lookupA (l ++ l2) k = lookupA l2 k := by
  induction l with
  | nil => rfl
  | cons kv rest ih =>
    by_cases hk : kv.1 = k
    · rw [show lookupA (kv :: rest) k = some kv.2 by simp [lookupA, hk]] at h
      exact Option.noConfusion h
    · rw [show lookupA (kv :: rest) k = lookupA rest k by simp [lookupA, hk]] at h
      rw [List.cons_append]
      rw [show lookupA (kv :: (rest ++ l2)) k = lookupA (rest ++ l2) k by
        simp [lookupA, hk]]
      exact ih h

theorem resolve_join (store : Store) (rs : RouterState) (k : Key) (w : Nat)
    (ws0 : List Nat) (hmiss : lookupA store.resources k = none)
    (hpend : lookupA rs.pending k = some ws0) :
    resolve store rs w k = { rs with pending := setA rs.pending k (ws0 ++ [w]) } := by
  unfold resolve
  rw [hmiss, hpend]

theorem foldl_resolve_pending (store : Store) (k : Key)
    (hmiss : lookupA store.resources k = none) :
    ∀ (ws : List Nat) (rs : RouterState) (acc : List Nat),
      lookupA rs.pending k = some acc →
      (ws.foldl (fun r w => resolve store r w k) rs).fetches = rs.fetches
      ∧ lookupA (ws.foldl (fun r w => resolve store r w k) rs).pending k =
          some (acc ++ ws) := by
  intro ws
  induction ws with
  | nil =>
    intro rs acc hpend
    exact ⟨rfl, by simpa using hpend⟩
  | cons w rest ih =>
    intro rs acc hpend
    rw [List.foldl_cons, resolve_join store rs k w acc hmiss hpend]
    have hpend2 : lookupA (setA rs.pending k (acc ++ [w])) k = some (acc ++ [w]) :=
      lookupA_setA_self rs.pending k (acc ++ [w])
    have := ih { rs with pending := setA rs.pending k (acc ++ [w]) } (acc ++ [w]) hpend2
    refine ⟨this.1, ?_⟩
    rw [this.2]
    simp

/-- C8: while a fetch for a missing key is outstanding, any number `N ≥ 1`
of `resolve` calls for that key cause exactly one underlying network fetch
(the fetch log grows by exactly the one entry), and the fetch completion
delivers the single result to all `N` waiters. -/
theorem c8_resolve_dedup (store : Store) (rs : RouterState) (k : Key)
    (ws : List Nat) (hmiss : lookupA store.resources k = none)
    (hnop : lookupA rs.pending k = none) (hne : ws ≠ []) :
    (ws.foldl (fun r w => resolve store r w k) rs).fetches = rs.fetches ++ [k]
    ∧ (completeFetch (ws.foldl (fun r w => resolve store r w k) rs) k).2 = ws := by
  cases ws with
  | nil => exact absurd rfl hne
  | cons w0 rest =>
    rw [List.foldl_cons]
    have hres : resolve store rs w0 k =
        { pending := rs.pending ++ [(k, [w0])], fetches := rs.fetches ++ [k] } := by
      unfold resolve
      rw [hmiss, hnop]
    rw [hres]
    have hpend1 : lookupA (rs.pending ++ [(k, [w0])]) k = some [w0] := by
      rw [lookupA_append_of_none rs.pending [(k, [w0])] k hnop]
      simp [lookupA]
    have hfold := foldl_resolve_pending store k hmiss rest
      { pending := rs.pending ++ [(k, [w0])], fetches := rs.fetches ++ [k] } [w0] hpend1
    refine ⟨hfold.1, ?_⟩
    unfold completeFetch
    rw [hfold.2]
    simp

end MbglOffline

namespace MbglGl

/-- C10: after the assignment `state = v`, `getCurrentValue() = v` and
`isDirty() = false`; assigning a value equal to the current value of a
non-dirty `State` performs no underlying `T::Set` call, while any assignment
to a dirty `State` always performs the `T::Set` call. -/
theorem c10_state_assign {α : Type} [DecidableEq α] (s : State α) (v : α) :
    ((s.assign v).1.getCurrentValue = v ∧ (s.assign v).1.isDirty = false)
    ∧ (s.isDirty = false → s.getCurrentValue = v → (s.assign v).2 = false)
    ∧ (s.isDirty = true → (s.assign v).2 = true) := by
  unfold State.assign State.neValue State.setCurrentValue State.getCurrentValue State.isDirty
  by_cases hd : s.dirty
  · simp [hd]
  · simp only [Bool.not_eq_true] at hd
    by_cases hv : s.currentValue = v
    · simp [hd, hv]
    · simp [hd, hv]

/-- Witness for C10 at a concrete input: a dirty state always performs the
`T::Set` call. -/
theorem c10_state_assign_witness :
    (State.assign { currentValue := (0 : Nat), dirty := true } 0).2 = true :=
  (c10_state_assign { currentValue := (0 : Nat), dirty := true } 0).2.2 rfl

end MbglGl

namespace MbglUtil

theorem mem_cellRange {a b v : Int} : v ∈ cellRange a b ↔ a ≤ v ∧ v ≤ b := by
  unfold cellRange
  simp only [List.mem_map, List.mem_range]
  constructor
  · rintro ⟨i, hi, rfl⟩
    omega
  · rintro ⟨h1, h2⟩
    refine ⟨(v - a).toNat, by omega, by omega⟩

theorem convertToCellCoord_mono {T : Type} (g : GridIndex T)
    (hext : 0 < g.extent) (hn : 0 ≤ g.n) {x y : Int} (h : x ≤ y) :
    g.convertToCellCoord x ≤ g.convertToCellCoord y := by
  unfold GridIndex.convertToCellCoord
  have h1 : x * g.n ≤ y * g.n := Int.mul_le_mul_of_nonneg_right h hn
  have h2 : Int.fdiv (x * g.n) g.extent ≤ Int.fdiv (y * g.n) g.extent := by
    rw [Int.fdiv_eq_ediv _ (le_of_lt hext), Int.fdiv_eq_ediv _ (le_of_lt hext)]
    exact Int.ediv_le_ediv hext h1
  exact max_le_max (le_refl _) (min_le_min (le_refl _) (by omega))

theorem mem_pushCell {cells : Int → List Nat} {idx : Int} {uid : Nat}
    {j : Int} {u : Nat} :
    u ∈ pushCell cells idx uid j ↔ u ∈ cells j ∨ (u = uid ∧ j = idx) := by
  unfold pushCell
  by_cases hj : j = idx
  · subst hj
    simp
  · simp [hj]

theorem mem_foldl_pushCell_inner (dd x : Int) (uid : Nat) (ys : List Int) :
    ∀ (cs : Int → List Nat) (j : Int) (u : Nat),
      u ∈ (ys.foldl (fun cs2 y => pushCell cs2 (dd * y + x) uid) cs) j ↔
        u ∈ cs j ∨ (u = uid ∧ ∃ y ∈ ys, j = dd * y + x) := by
  induction ys with
  | nil =>
    intro cs j u
    simp
  | cons y0 rest ih =>
    intro cs j u
    rw [List.foldl_cons, ih]
    rw [mem_pushCell]
    constructor
    · rintro (⟨hc | ⟨rfl, rfl⟩⟩ | ⟨rfl, ⟨y1, hy1, rfl⟩⟩)
      · exact Or.inl hc
      · exact Or.inr ⟨rfl, y0, List.mem_cons_self y0 rest, rfl⟩
      · exact Or.inr ⟨rfl, y1, List.mem_cons_of_mem y0 hy1, rfl⟩
    · rintro (hc | ⟨rfl, ⟨y1, hy1, rfl⟩⟩)
      · exact Or.inl (Or.inl hc)
      · rcases List.mem_cons.mp hy1 with rfl | hy2
        · exact Or.inl (Or.inr ⟨rfl, rfl⟩)
        · exact Or.inr ⟨rfl, y1, hy2, rfl⟩

theorem mem_foldl_pushCell (dd : Int) (uid : Nat) (ys : List Int) (xs : List Int) :
    ∀ (cs : Int → List Nat) (j : Int) (u : Nat),
      u ∈ (xs.foldl
          (fun cs3 x => ys.foldl (fun cs2 y => pushCell cs2 (dd * y + x) uid) cs3)
          cs) j ↔
        u ∈ cs j ∨ (u = uid ∧ ∃ x ∈ xs, ∃ y ∈ ys, j = dd * y + x) := by
  induction xs with
  | nil =>
    intro cs j u
    simp
  | cons x0 rest ih =>
    intro cs j u
    rw [List.foldl_cons, ih]
    rw [mem_foldl_pushCell_inner dd x0 uid ys]
    constructor
    · rintro (⟨hc | ⟨rfl, ⟨y1, hy1, rfl⟩⟩⟩ | ⟨rfl, ⟨x1, hx1, ⟨y1, hy1, rfl⟩⟩⟩)
      · exact Or.inl hc
      · exact Or.inr ⟨rfl, x0, List.mem_cons_self x0 rest, y1, hy1, rfl⟩
      · exact Or.inr ⟨rfl, x1, List.mem_cons_of_mem x0 hx1, y1, hy1, rfl⟩
    · rintro (hc | ⟨rfl, ⟨x1, hx1, ⟨y1, hy1, rfl⟩⟩⟩)
      · exact Or.inl (Or.inl hc)
      · rcases List.mem_cons.mp hx1 with rfl | hx2
        · exact Or.inl (Or.inr ⟨rfl, y1, hy1, rfl⟩)
        · exact Or.inr ⟨rfl, x1, hx2, y1, hy1, rfl⟩

end MbglUtil

namespace MbglUtil

theorem cellsOk_init (T : Type) (extent n padding : Int) :
    (GridIndex.init T extent n padding).cellsOk := by
  intro idx uid
  simp [GridIndex.init, GridIndex.cellsOk, List.get?]

theorem cellsOk_insert {T : Type} (g : GridIndex T) (t : T) (b : BBox)
    (hok : g.cellsOk) : (g.insert t b).cellsOk := by
  intro idx uid
  have hcells : uid ∈ (g.insert t b).cells idx ↔
      uid ∈ g.cells idx ∨ (uid = g.elements.length ∧
        ∃ cx ∈ cellRange (g.convertToCellCoord b.x1) (g.convertToCellCoord b.x2),
        ∃ cy ∈ cellRange (g.convertToCellCoord b.y1) (g.convertToCellCoord b.y2),
        idx = g.d * cy + cx) :=
    mem_foldl_pushCell g.d g.elements.length
      (cellRange (g.convertToCellCoord b.y1) (g.convertToCellCoord b.y2))
      (cellRange (g.convertToCellCoord b.x1) (g.convertToCellCoord b.x2))
      g.cells idx uid
  constructor
  · intro h
    rcases hcells.mp h with hold | ⟨rfl, hx⟩
    · rcases (hok idx uid).mp hold with ⟨t0, b0, hget, hrest⟩
      have hlt : uid < g.elements.length := by
        rcases List.get?_eq_some.mp hget with ⟨hl, _⟩
        exact hl
      refine ⟨t0, b0, ?_, hrest⟩
      show (g.elements ++ [(t, b)]).get? uid = some (t0, b0)
      rw [List.get?_append hlt]
      exact hget
    · refine ⟨t, b, ?_, hx⟩
      show (g.elements ++ [(t, b)]).get? g.elements.length = some (t, b)
      exact List.get?_concat_length g.elements (t, b)
  · rintro ⟨t0, b0, hget, hx⟩
    by_cases hlt : uid < g.elements.length
    · have hget' : g.elements.get? uid = some (t0, b0) := by
        have : (g.elements ++ [(t, b)]).get? uid = g.elements.get? uid :=
          List.get?_append hlt
        rw [← this]
        exact hget
      exact hcells.mpr (Or.inl ((hok idx uid).mpr ⟨t0, b0, hget', hx⟩))
    · have hlen : uid < g.elements.length + 1 := by
        rcases List.get?_eq_some.mp hget with ⟨hl, _⟩
        have h2 : (g.insert t b).elements.length = g.elements.length + 1 := by
          show (g.elements ++ [(t, b)]).length = g.elements.length + 1
          simp
        omega
      have huid : uid = g.elements.length := by omega
      subst huid
      have heq : some ((t, b) : T × BBox) = some (t0, b0) := by
        rw [← List.get?_concat_length g.elements (t, b)]
        exact hget
      have heq2 := Option.some_inj.mp heq
      have ht : t = t0 := congrArg Prod.fst heq2
      have hb : b = b0 := congrArg Prod.snd heq2
      subst ht
      subst hb
      exact hcells.mpr (Or.inr ⟨rfl, hx⟩)

theorem insertAll_elements {T : Type} :
    ∀ (items : List (T × BBox)) (g : GridIndex T),
      (g.insertAll items).elements = g.elements ++ items := by
  intro items
  induction items with
  | nil =>
    intro g
    simp [GridIndex.insertAll]
  | cons tb rest ih =>
    intro g
    show ((g.insert tb.1 tb.2).insertAll rest).elements = g.elements ++ (tb :: rest)
    rw [ih (g.insert tb.1 tb.2)]
    show (g.elements ++ [(tb.1, tb.2)]) ++ rest = g.elements ++ (tb :: rest)
    simp

theorem insertAll_params {T : Type} :
    ∀ (items : List (T × BBox)) (g : GridIndex T),
      (g.insertAll items).extent = g.extent ∧ (g.insertAll items).n = g.n ∧
      (g.insertAll items).padding = g.padding ∧ (g.insertAll items).d = g.d := by
  intro items
  induction items with
  | nil =>
    intro g
    exact ⟨rfl, rfl, rfl, rfl⟩
  | cons tb rest ih =>
    intro g
    exact ih (g.insert tb.1 tb.2)

theorem insertAll_convert {T : Type} (items : List (T × BBox)) (g : GridIndex T)
    (x : Int) :
    (g.insertAll items).convertToCellCoord x = g.convertToCellCoord x := by
  unfold GridIndex.convertToCellCoord
  rcases insertAll_params items g with ⟨he, hn, hp, hd⟩
  rw [he, hn, hp, hd]

theorem insertAll_cellsOk {T : Type} :
    ∀ (items : List (T × BBox)) (g : GridIndex T),
      g.cellsOk → (g.insertAll items).cellsOk := by
  intro items
  induction items with
  | nil =>
    intro g hok
    exact hok
  | cons tb rest ih =>
    intro g hok
    exact ih (g.insert tb.1 tb.2) (cellsOk_insert g tb.1 tb.2 hok)

end MbglUtil

namespace MbglUtil

theorem queryStep_seen {T : Type} {g : GridIndex T} {q : BBox}
    {acc : List Nat × List (Nat × T)} {u : Nat} (h : u ∈ acc.1) :
    queryStep g q acc u = acc := by
  unfold queryStep
  rw [if_pos h]

theorem queryStep_missing {T : Type} {g : GridIndex T} {q : BBox}
    {acc : List Nat × List (Nat × T)} {u : Nat} (h : u ∉ acc.1)
    (hget : g.elements.get? u = none) :
    queryStep g q acc u = (acc.1 ++ [u], acc.2) := by
  unfold queryStep
  rw [if_neg h, hget]

theorem queryStep_pass {T : Type} {g : GridIndex T} {q : BBox}
    {acc : List Nat × List (Nat × T)} {u : Nat} {t : T} {b : BBox}
    (h : u ∉ acc.1) (hget : g.elements.get? u = some (t, b))
    (hint : bboxIntersects q b = true) :
    queryStep g q acc u = (acc.1 ++ [u], acc.2 ++ [(u, t)]) := by
  unfold queryStep
  rw [if_neg h, hget]
  dsimp only
  rw [if_pos hint]

theorem queryStep_nopass {T : Type} {g : GridIndex T} {q : BBox}
    {acc : List Nat × List (Nat × T)} {u : Nat} {t : T} {b : BBox}
    (h : u ∉ acc.1) (hget : g.elements.get? u = some (t, b))
    (hint : ¬bboxIntersects q b = true) :
    queryStep g q acc u = (acc.1 ++ [u], acc.2) := by
  unfold queryStep
  rw [if_neg h, hget]
  dsimp only
  rw [if_neg hint]

theorem foldl_queryStep_mem {T : Type} (g : GridIndex T) (q : BBox) :
    ∀ (L : List Nat) (acc : List Nat × List (Nat × T)) (p : Nat × T),
      p ∈ (L.foldl (queryStep g q) acc).2 ↔
        p ∈ acc.2 ∨ (p.1 ∈ L ∧ p.1 ∉ acc.1 ∧
          ∃ b, g.elements.get? p.1 = some (p.2, b) ∧ bboxIntersects q b = true) := by
  intro L
  induction L with
  | nil =>
    intro acc p
    simp
  | cons u rest ih =>
    intro acc p
    rw [List.foldl_cons]
    by_cases hseen : u ∈ acc.1
    · rw [queryStep_seen hseen, ih acc p]
      constructor
      · rintro (h | ⟨h1, h2, h3⟩)
        · exact Or.inl h
        · exact Or.inr ⟨List.mem_cons_of_mem u h1, h2, h3⟩
      · rintro (h | ⟨h1, h2, h3⟩)
        · exact Or.inl h
        · rcases List.mem_cons.mp h1 with he | h1'
          · exact absurd (he ▸ hseen) h2
          · exact Or.inr ⟨h1', h2, h3⟩
    · cases hget : g.elements.get? u with
      | none =>
        rw [queryStep_missing hseen hget, ih _ p]
        constructor
        · rintro (h | ⟨h1, h2, h3⟩)
          · exact Or.inl h
          · have h2a : p.1 ∉ acc.1 := fun hc => h2 (List.mem_append.mpr (Or.inl hc))
            exact Or.inr ⟨List.mem_cons_of_mem u h1, h2a, h3⟩
        · rintro (h | ⟨h1, h2, h3⟩)
          · exact Or.inl h
          · rcases h3 with ⟨b1, hget1, hint1⟩
            have hpu : p.1 ≠ u := by
              intro he
              rw [he] at hget1
              rw [hget1] at hget
              exact Option.noConfusion hget
            rcases List.mem_cons.mp h1 with he | h1'
            · exact absurd he hpu
            · refine Or.inr ⟨h1', ?_, b1, hget1, hint1⟩
              intro hc
              rcases List.mem_append.mp hc with hc' | hc'
              · exact h2 hc'
              · exact hpu (by simpa using hc')
      | some tb =>
        obtain ⟨t0, b0⟩ := tb
        by_cases hint : bboxIntersects q b0 = true
        · rw [queryStep_pass hseen hget hint, ih _ p]
          constructor
          · rintro (h | ⟨h1, h2, h3⟩)
            · rcases List.mem_append.mp h with h' | h'
              · exact Or.inl h'
              · have hp : p = (u, t0) := by simpa using h'
                subst hp
                exact Or.inr ⟨List.mem_cons_self _ _, hseen, b0, hget, hint⟩
            · have h2a : p.1 ∉ acc.1 := fun hc => h2 (List.mem_append.mpr (Or.inl hc))
              exact Or.inr ⟨List.mem_cons_of_mem u h1, h2a, h3⟩
          · rintro (h | ⟨h1, h2, h3⟩)
            · exact Or.inl (List.mem_append.mpr (Or.inl h))
            · rcases h3 with ⟨b1, hget1, hint1⟩
              by_cases hpu : p.1 = u
              · rw [hpu] at hget1
                rw [hget1] at hget
                have heq := Option.some_inj.mp hget
                have hpt : p.2 = t0 := congrArg Prod.fst heq
                have hp : p = (u, t0) := by
                  rw [← hpu, ← hpt]
                exact Or.inl (List.mem_append.mpr (Or.inr (by simp [hp])))
              · rcases List.mem_cons.mp h1 with he | h1'
                · exact absurd he hpu
                · refine Or.inr ⟨h1', ?_, b1, hget1, hint1⟩
                  intro hc
                  rcases List.mem_append.mp hc with hc' | hc'
                  · exact h2 hc'
                  · exact hpu (by simpa using hc')
        · rw [queryStep_nopass hseen hget hint, ih _ p]
          constructor
          · rintro (h | ⟨h1, h2, h3⟩)
            · exact Or.inl h
            · have h2a : p.1 ∉ acc.1 := fun hc => h2 (List.mem_append.mpr (Or.inl hc))
              exact Or.inr ⟨List.mem_cons_of_mem u h1, h2a, h3⟩
          · rintro (h | ⟨h1, h2, h3⟩)
            · exact Or.inl h
            · rcases h3 with ⟨b1, hget1, hint1⟩
              by_cases hpu : p.1 = u
              · rw [hpu] at hget1
                rw [hget1] at hget
                have heq := Option.some_inj.mp hget
                have hb : b1 = b0 := congrArg Prod.snd heq
                rw [hb] at hint1
                exact absurd hint1 hint
              · rcases List.mem_cons.mp h1 with he | h1'
                · exact absurd he hpu
                · refine Or.inr ⟨h1', ?_, b1, hget1, hint1⟩
                  intro hc
                  rcases List.mem_append.mp hc with hc' | hc'
                  · exact h2 hc'
                  · exact hpu (by simpa using hc')

end MbglUtil

namespace MbglUtil

theorem foldl_queryStep_nodup {T : Type} (g : GridIndex T) (q : BBox) :
    ∀ (L : List Nat) (acc : List Nat × List (Nat × T)),
      ((acc.2.map Prod.fst).Nodup ∧ (∀ u ∈ acc.2.map Prod.fst, u ∈ acc.1)) →
      (((L.foldl (queryStep g q) acc).2.map Prod.fst).Nodup ∧
        (∀ u ∈ (L.foldl (queryStep g q) acc).2.map Prod.fst,
          u ∈ (L.foldl (queryStep g q) acc).1)) := by
  intro L
  induction L with
  | nil =>
    intro acc h
    exact h
  | cons u rest ih =>
    intro acc h
    rw [List.foldl_cons]
    refine ih (queryStep g q acc u) ?_
    by_cases hseen : u ∈ acc.1
    · rw [queryStep_seen hseen]
      exact h
    · cases hget : g.elements.get? u with
      | none =>
        rw [queryStep_missing hseen hget]
        exact ⟨h.1, fun u2 hu2 => List.mem_append.mpr (Or.inl (h.2 u2 hu2))⟩
      | some tb =>
        obtain ⟨t0, b0⟩ := tb
        by_cases hint : bboxIntersects q b0 = true
        · rw [queryStep_pass hseen hget hint]
          constructor
          · show ((acc.2 ++ [(u, t0)]).map Prod.fst).Nodup
            rw [List.map_append]
            rw [List.nodup_append]
            refine ⟨h.1, by simp, ?_⟩
            intro u2 hu2
            simp only [List.map_cons, List.map_nil, List.mem_singleton]
            intro he
            rw [he] at hu2
            exact hseen (h.2 u hu2)
          · intro u2 hu2
            show u2 ∈ acc.1 ++ [u]
            rw [List.map_append] at hu2
            rcases List.mem_append.mp hu2 with h' | h'
            · exact List.mem_append.mpr (Or.inl (h.2 u2 h'))
            · exact List.mem_append.mpr (Or.inr (by simpa using h'))
        · rw [queryStep_nopass hseen hget hint]
          exact ⟨h.1, fun u2 hu2 => List.mem_append.mpr (Or.inl (h.2 u2 hu2))⟩

theorem mem_visitedUids {T : Type} (g : GridIndex T) (q : BBox) (uid : Nat) :
    uid ∈ g.visitedUids q ↔
      ∃ x ∈ cellRange (g.convertToCellCoord q.x1) (g.convertToCellCoord q.x2),
      ∃ y ∈ cellRange (g.convertToCellCoord q.y1) (g.convertToCellCoord q.y2),
        uid ∈ g.cells (g.d * y + x) := by
  unfold GridIndex.visitedUids
  simp [List.mem_flatMap]

end MbglUtil

namespace MbglUtil

theorem bboxIntersects_iff {q b : BBox} :
    bboxIntersects q b = true ↔
      (q.x1 ≤ b.x2 ∧ q.y1 ≤ b.y2 ∧ b.x1 ≤ q.x2 ∧ b.y1 ≤ q.y2) := by
  unfold bboxIntersects
  simp only [Bool.and_eq_true, decide_eq_true_eq, ge_iff_le]
  tauto

/-- C9: for every sequence of `GridIndex::insert` calls with well-formed
bounding boxes inside the grid extent and every well-formed query box,
`GridIndex::query` returns each inserted element at most once (the uids of
the tagged results are distinct), and returns exactly those insertions
whose stored bounding box intersects the query box; the value list returned
by `query` is the tagged result list's values. -/
theorem c9_grid_query {T : Type} (extent n padding : Int)
    (hext : 0 < extent) (hn : 0 ≤ n)
    (items : List (T × BBox)) (hitems : ∀ tb ∈ items, BBox.wfWithin tb.2 extent)
    (q : BBox) (hq : BBox.wf q) :
    ((((GridIndex.init T extent n padding).insertAll items).queryTagged q).map
        Prod.fst).Nodup
    ∧ (∀ (uid : Nat) (t : T),
        (uid, t) ∈ ((GridIndex.init T extent n padding).insertAll items).queryTagged q ↔
          ∃ h : uid < items.length,
            t = (items.get ⟨uid, h⟩).1 ∧
            bboxIntersects q (items.get ⟨uid, h⟩).2 = true)
    ∧ ((GridIndex.init T extent n padding).insertAll items).query q =
        (((GridIndex.init T extent n padding).insertAll items).queryTagged q).map
          Prod.snd := by
  set g := (GridIndex.init T extent n padding).insertAll items with hg
  have hel : g.elements = items := by
    rw [hg, insertAll_elements]
    show ([] : List (T × BBox)) ++ items = items
    simp
  have hok : g.cellsOk := by
    rw [hg]
    exact insertAll_cellsOk items _ (cellsOk_init T extent n padding)
  have hparams := insertAll_params items (GridIndex.init T extent n padding)
  have hext' : 0 < g.extent := by
    rw [hg, hparams.1]
    exact hext
  have hn' : 0 ≤ g.n := by
    rw [hg, hparams.2.1]
    exact hn
  have hmono : ∀ {x y : Int}, x ≤ y →
      g.convertToCellCoord x ≤ g.convertToCellCoord y :=
    fun h => convertToCellCoord_mono g hext' hn' h
  refine ⟨?_, ?_, rfl⟩
  · have hnd := foldl_queryStep_nodup g q (g.visitedUids q) ([], [])
      ⟨by simp, by simp⟩
    exact hnd.1
  · intro uid t
    have hmem := foldl_queryStep_mem g q (g.visitedUids q) ([], []) (uid, t)
    have hmem2 : (uid, t) ∈ g.queryTagged q ↔
        uid ∈ g.visitedUids q ∧
          ∃ b, g.elements.get? uid = some (t, b) ∧ bboxIntersects q b = true := by
      rw [show g.queryTagged q =
        ((g.visitedUids q).foldl (queryStep g q) ([], [])).2 from rfl]
      rw [hmem]
      simp
    rw [hmem2]
    constructor
    · rintro ⟨_, b, hget, hint⟩
      rw [hel] at hget
      rcases List.get?_eq_some.mp hget with ⟨h, hgv⟩
      refine ⟨h, ?_, ?_⟩
      · rw [hgv]
      · rw [hgv]
        exact hint
    · rintro ⟨h, ht, hint⟩
      have hmemel : items.get ⟨uid, h⟩ ∈ items := items.get_mem _ _
      have hwf := hitems _ hmemel
      have hget : g.elements.get? uid =
          some (t, (items.get ⟨uid, h⟩).2) := by
        rw [hel, List.get?_eq_get h]
        rw [ht]
      rcases bboxIntersects_iff.mp hint with ⟨hi1, hi2, hi3, hi4⟩
      rcases hwf with ⟨hb1, hb2, _⟩
      rcases hq with ⟨hq1, hq2⟩
      set b := (items.get ⟨uid, h⟩).2 with hb
      set cx := max (g.convertToCellCoord b.x1) (g.convertToCellCoord q.x1) with hcx
      set cy := max (g.convertToCellCoord b.y1) (g.convertToCellCoord q.y1) with hcy
      have hcxb : cx ∈ cellRange (g.convertToCellCoord b.x1) (g.convertToCellCoord b.x2) := by
        rw [mem_cellRange]
        exact ⟨le_max_left _ _, max_le (hmono hb1) (hmono hi1)⟩
      have hcxq : cx ∈ cellRange (g.convertToCellCoord q.x1) (g.convertToCellCoord q.x2) := by
        rw [mem_cellRange]
        exact ⟨le_max_right _ _, max_le (hmono hi3) (hmono hq1)⟩
      have hcyb : cy ∈ cellRange (g.convertToCellCoord b.y1) (g.convertToCellCoord b.y2) := by
        rw [mem_cellRange]
        exact ⟨le_max_left _ _, max_le (hmono hb2) (hmono hi2)⟩
      have hcyq : cy ∈ cellRange (g.convertToCellCoord q.y1) (g.convertToCellCoord q.y2) := by
        rw [mem_cellRange]
        exact ⟨le_max_right _ _, max_le (hmono hi4) (hmono hq2)⟩
      have hcell : uid ∈ g.cells (g.d * cy + cx) :=
        (hok (g.d * cy + cx) uid).mpr ⟨t, b, hget, cx, hcxb, cy, hcyb, rfl⟩
      refine ⟨?_, b, hget, hint⟩
      rw [mem_visitedUids]
      exact ⟨cx, hcxq, cy, hcyq, hcell⟩

end MbglUtil

namespace MbglUtil

/-- Closed instance of C9: a concrete grid built by two inserts, queried,
with all hypotheses discharged at concrete values. -/
theorem c9_grid_query_witness :
    ((((GridIndex.init Nat 8 4 1).insertAll
        [(7, { x1 := 0, y1 := 0, x2 := 2, y2 := 2 }),
         (9, { x1 := 3, y1 := 3, x2 := 6, y2 := 6 })]).queryTagged
        { x1 := 0, y1 := 0, x2 := 3, y2 := 3 }).map Prod.fst).Nodup :=
  (c9_grid_query 8 4 1 (by decide) (by decide)
    [(7, { x1 := 0, y1 := 0, x2 := 2, y2 := 2 }),
     (9, { x1 := 3, y1 := 3, x2 := 6, y2 := 6 })] (by decide)
    { x1 := 0, y1 := 0, x2 := 3, y2 := 3 } (by decide)).1

end MbglUtil

namespace MbglOffline

/-- Closed instance of C8: two concurrent resolves for one missing key cause
exactly one fetch, delivered to both waiters on completion. -/
theorem c8_resolve_dedup_witness :
    (([10, 20].foldl
        (fun r w => resolve (initStore 5 5) r w { kind := Kind.style, locator := 1 })
        { pending := [], fetches := [] }).fetches =
      ({ pending := [], fetches := [] } : RouterState).fetches ++
        [{ kind := Kind.style, locator := 1 }])
    ∧ (completeFetch
        ([10, 20].foldl
          (fun r w => resolve (initStore 5 5) r w { kind := Kind.style, locator := 1 })
          { pending := [], fetches := [] })
        { kind := Kind.style, locator := 1 }).2 = [10, 20] :=
  c8_resolve_dedup (initStore 5 5) { pending := [], fetches := [] }
    { kind := Kind.style, locator := 1 } [10, 20] rfl rfl (by decide)

/-- Closed instance of C5: deleting an Active region fails with the region
state error. -/
theorem c5_delete_region_witness :
    deleteRegion
      { resources := [], links := [],
        regions := [(1,
          { definition :=
              { minLat := 0, minLon := 0, maxLat := 1, maxLon := 1,
                minZoom := 0, maxZoom := 1, styleLocator := 1, pixelRatio := 1 },
            metadata := [], state := RegState.active, manifest := [],
            createdAt := 0 })],
        maxAmbient := 5, tileLimit := 5, clock := 1, nextRegionId := 2 } 1 =
      Except.error OfflineError.regionStateError :=
  (c5_delete_region _ 1
    { definition :=
        { minLat := 0, minLon := 0, maxLat := 1, maxLon := 1,
          minZoom := 0, maxZoom := 1, styleLocator := 1, pixelRatio := 1 },
      metadata := [], state := RegState.active, manifest := [],
      createdAt := 0 } (by decide)).1 (by decide)

/-- Closed instance of C6: a valid definition yields an Inactive region with
`manifestCount` equal to the manifest enumeration's size. -/
theorem c6_create_region_witness :
    ∃ (s' : Store) (reg : Region),
      createRegion (initStore 5 5)
        { minLat := 0, minLon := 0, maxLat := 10, maxLon := 10,
          minZoom := 0, maxZoom := 2, styleLocator := 3, pixelRatio := 1 } [] =
        Except.ok (s', reg)
      ∧ reg.state = RegState.inactive
      ∧ reg.manifestCount =
          (regionManifest
            { minLat := 0, minLon := 0, maxLat := 10, maxLon := 10,
              minZoom := 0, maxZoom := 2, styleLocator := 3, pixelRatio := 1 }).length
      ∧ ((initStore 5 5).nextRegionId, reg) ∈ s'.regions :=
  (c6_create_region (initStore 5 5)
    { minLat := 0, minLon := 0, maxLat := 10, maxLon := 10,
      minZoom := 0, maxZoom := 2, styleLocator := 3, pixelRatio := 1 } []).2
    (by decide)

end MbglOffline


namespace MbglOffline

/-- Closed instance of C1: with tile limit 1, two tile writes leave at most
one persisted tile, and a tile write at the limit surfaces the quota error. -/
theorem c1_tile_quota_witness :
    tileCount (applyOps (initStore 10 1) demoOpsTiles) ≤ 1
    ∧ persistChecked demoStoreC1 demoKeyTile2 [7] 0 =
        Except.error OfflineError.quotaExceededError :=
  ⟨(c1_tile_quota 10 1 demoOpsTiles demoStoreC1 demoKeyTile2 [7] 0).1,
   (c1_tile_quota 10 1 demoOpsTiles demoStoreC1 demoKeyTile2 [7] 0).2
     (by decide) (by decide) (by decide)⟩

/-- Closed instance of C3: an eviction pass keeps a region-linked resource,
and deleting one of two linking regions keeps the resource and the other
region's link. -/
theorem c3_linked_never_removed_witness :
    lookupA (evictPass demoStoreShared).resources demoKeyStyle = some demoRes
    ∧ (demoStoreSharedDel.resources = demoStoreShared.resources
      ∧ (2, demoKeyStyle) ∈ demoStoreSharedDel.links) :=
  ⟨(c3_linked_never_removed demoStoreShared demoKeyStyle demoRes 1 2
      demoStoreSharedDel).1 (by decide) (by decide),
   (c3_linked_never_removed demoStoreShared demoKeyStyle demoRes 1 2
      demoStoreSharedDel).2 rfl (by decide) (by decide)⟩

/-- Closed instance of C4: the mid-write bound, the eviction-pass bound and
the bound after a non-empty write sequence, at concrete values. -/
theorem c4_ambient_bound_witness :
    totalAmbientSize ((initStore 2 9).put demoKeyStyle [1, 2, 3] 0) ≤
      (initStore 2 9).maxAmbient + [1, 2, 3].length
    ∧ totalAmbientSize (evictPass (initStore 2 9)) ≤ (initStore 2 9).maxAmbient
    ∧ totalAmbientSize
        ([(demoKeyStyle, ([1, 2, 3], 0))].foldl
          (fun st w => putAmbient st w.1 w.2.1 w.2.2) (initStore 2 9)) ≤
        (initStore 2 9).maxAmbient :=
  ⟨(c4_ambient_bound (initStore 2 9) demoKeyStyle [1, 2, 3] 0
      [(demoKeyStyle, ([1, 2, 3], 0))]).1 (by decide),
   (c4_ambient_bound (initStore 2 9) demoKeyStyle [1, 2, 3] 0
      [(demoKeyStyle, ([1, 2, 3], 0))]).2.1,
   (c4_ambient_bound (initStore 2 9) demoKeyStyle [1, 2, 3] 0
      [(demoKeyStyle, ([1, 2, 3], 0))]).2.2 (by decide)⟩

/-- Closed instance of C7: pausing, resuming and one download step on a
half-downloaded region never decrease its completed count and leave the
already-completed resource untouched. -/
theorem c7_resumability_witness :
    completedResourceCount demoStoreRegion 1 ≤
      completedResourceCount (applyOps demoStoreRegion demoOpsResume) 1
    ∧ ((1, demoKeyStyle) ∈ (applyOps demoStoreRegion demoOpsResume).links
      ∧ lookupA (applyOps demoStoreRegion demoOpsResume).resources demoKeyStyle =
          lookupA demoStoreRegion.resources demoKeyStyle) :=
  ⟨(c7_resumability demoStoreRegion 1 demoKeyStyle demoOpsResume
      (by
        intro op hop
        rcases List.mem_cons.mp hop with rfl | hop2
        · exact Or.inl ⟨RegState.inactive, rfl⟩
        · rcases List.mem_cons.mp hop2 with rfl | hop3
          · exact Or.inl ⟨RegState.active, rfl⟩
          · rcases List.mem_cons.mp hop3 with rfl | hop4
            · exact Or.inr ⟨[5], 0, rfl⟩
            · exact absurd hop4 (by simp))).1,
   (c7_resumability demoStoreRegion 1 demoKeyStyle demoOpsResume
      (by
        intro op hop
        rcases List.mem_cons.mp hop with rfl | hop2
        · exact Or.inl ⟨RegState.inactive, rfl⟩
        · rcases List.mem_cons.mp hop2 with rfl | hop3
          · exact Or.inl ⟨RegState.active, rfl⟩
          · rcases List.mem_cons.mp hop3 with rfl | hop4
            · exact Or.inr ⟨[5], 0, rfl⟩
            · exact absurd hop4 (by simp))).2 (by decide)⟩

end MbglOffline
